import Mathlib

/-!
Verification of the reservoir-sampling log layer (tracing-log-sample).

This file is a shallow embedding of the sampling engine:

* src/reservoir.rs : Reservoir, sample (Algorithm R step), drain.
* src/layer.rs     : State, Stats, match_filters, sample_event (the budget
  cascade), smear_collect, rotate_bucket, tick_smear, flush, Drop, on_event.

Machine integers (u64, usize) are modelled as Nat (no arithmetic here ever
nears 2^64 semantics: counters only increment).  Instant/Duration are Nat
nanoseconds; Instant subtraction saturates like
Duration::saturating_duration_since.  The PRNG draw fastrand::usize(0..count)
is an explicit argument.  The thread-local capture buffer (src/capture.rs) is
a List Nat field of the machine (the single-threaded projection of the
per-thread buffer).  The sink is the list of items written, in write order.
-/

/-- Items stored by the engine: the arrival sequence number paired with the
formatted byte payload.  src/layer.rs stores (u64, Vec<u8>); the Default
value (0, []) is the reservoir's empty sentinel. -/
abbrev Item : Type := Nat × List Nat

/-- Reservoir of src/reservoir.rs: offered-item count and a fixed block of
slots (events: Box<[T]>, length = capacity). -/
structure Reservoir (α : Type) where
  count : Nat
  events : List α
deriving DecidableEq

/-- Reservoir::new — count 0, capacity many default slots. -/
def Reservoir.new (α : Type) [Inhabited α] (capacity : Nat) : Reservoir α :=
  { count := 0, events := List.replicate capacity default }

/-- Reservoir::sample.  j models the value of fastrand::usize(0..self.count)
(drawn only in the second branch; passing it as an argument keeps the
function deterministic).  Mirrors: increment count; if slot count-1 exists,
replace it; else if slot j exists, replace it; else return the event. -/
def Reservoir.sample [Inhabited α] (r : Reservoir α) (event : α) (j : Nat) :
    Reservoir α × α :=
  if h : r.count + 1 - 1 < r.events.length then
    ({ count := r.count + 1, events := r.events.set (r.count + 1 - 1) event },
      r.events.get ⟨r.count + 1 - 1, h⟩)
  else if h2 : j < r.events.length then
    ({ count := r.count + 1, events := r.events.set j event },
      r.events.get ⟨j, h2⟩)
  else
    ({ count := r.count + 1, events := r.events }, event)

/-- Reservoir::drain, fully consumed (all call sites collect the iterator):
yields mem::take of the first count slots (capped at capacity) and resets
count to 0. -/
def Reservoir.drain [Inhabited α] (r : Reservoir α) : List α × Reservoir α :=
  let n := min r.count r.events.length
  (r.events.take r.count,
    { count := 0, events := List.replicate n default ++ r.events.drop n })

/-- Slot discipline maintained by the engine: slots at indices not yet
claimed by the fill phase still hold the Default sentinel. -/
abbrev Reservoir.freshSlots [Inhabited α] (r : Reservoir α) : Prop :=
  ∀ i, (h : i < r.events.length) → r.count ≤ i → r.events.get ⟨i, h⟩ = default

theorem Reservoir.new_freshSlots (α : Type) [Inhabited α] (capacity : Nat) :
    (Reservoir.new α capacity).freshSlots := by
  intro i h _
  simp [Reservoir.new] at h ⊢

/-- C1: a sample call increments count; while count stays within capacity the
item lands in slot count-1 and the sentinel comes back; past capacity the
drawn index j decides between swapping with slot j (returning its previous
occupant) and returning the offered item unchanged. -/
theorem reservoir_sample_spec {α : Type} [Inhabited α]
    (r : Reservoir α) (e : α) (j : Nat)
    (hK : 1 ≤ r.events.length) (hfresh : r.freshSlots) (hj : j < r.count + 1) :
    ((r.sample e j).1.count = r.count + 1) ∧
    (r.count + 1 ≤ r.events.length →
      (r.sample e j).2 = default ∧
      (r.sample e j).1.events = r.events.set r.count e) ∧
    (r.events.length < r.count + 1 →
      (∀ h : j < r.events.length,
        (r.sample e j).2 = r.events.get ⟨j, h⟩ ∧
        (r.sample e j).1.events = r.events.set j e) ∧
      (r.events.length ≤ j →
        (r.sample e j).2 = e ∧ (r.sample e j).1.events = r.events)) := by
  refine ⟨?_, fun hle => ?_, fun hgt => ⟨fun h2 => ?_, fun hjK => ?_⟩⟩
  · unfold Reservoir.sample
    split
    · rfl
    · split
      · rfl
      · rfl
  · have h1 : r.count + 1 - 1 < r.events.length := by omega
    unfold Reservoir.sample
    rw [dif_pos h1]
    refine ⟨?_, by simp⟩
    have := hfresh (r.count + 1 - 1) h1 (by omega)
    simpa using this
  · have h1 : ¬ r.count + 1 - 1 < r.events.length := by omega
    unfold Reservoir.sample
    rw [dif_neg h1, dif_pos h2]
    exact ⟨rfl, rfl⟩
  · have h1 : ¬ r.count + 1 - 1 < r.events.length := by omega
    unfold Reservoir.sample
    rw [dif_neg h1, dif_neg (by omega : ¬ j < r.events.length)]
    exact ⟨rfl, rfl⟩

theorem reservoir_sample_spec_witness :
    ((Reservoir.new Nat 3).sample 5 0).1.count = (Reservoir.new Nat 3).count + 1 ∧
    ((Reservoir.new Nat 3).sample 5 0).2 = 0 :=
  ⟨(reservoir_sample_spec (Reservoir.new Nat 3) 5 0 (by decide) (by decide) (by decide)).1,
    ((reservoir_sample_spec (Reservoir.new Nat 3) 5 0 (by decide) (by decide)
      (by decide)).2.1 (by decide)).1⟩

/-- C6: drain yields exactly min(count, capacity) items, namely the currently
retained slot contents in slot order, and leaves count = 0 with every slot
holding the empty sentinel. -/
theorem reservoir_drain_spec {α : Type} [Inhabited α]
    (r : Reservoir α) (hfresh : r.freshSlots) :
    ((r.drain).1.length = min r.count r.events.length) ∧
    ((r.drain).1 = r.events.take r.count) ∧
    ((r.drain).2.count = 0) ∧
    ((r.drain).2.events = List.replicate r.events.length default) := by
  refine ⟨by simp [Reservoir.drain], rfl, rfl, ?_⟩
  unfold Reservoir.drain
  apply List.ext_getElem
  · simp
  · intro i h1 h2
    simp only [List.length_replicate] at h2
    rw [List.getElem_replicate]
    by_cases hi : i < min r.count r.events.length
    · rw [List.getElem_append_left (by simpa using hi)]
      simp
    · have hge : (List.replicate (min r.count r.events.length) (default : α)).length ≤ i := by
        simp only [List.length_replicate]
        omega
      rw [List.getElem_append_right hge]
      rw [List.getElem_drop]
      have hidx : min r.count r.events.length +
          (i - (List.replicate (min r.count r.events.length) (default : α)).length) <
          r.events.length := by
        simp only [List.length_replicate]
        omega
      have hcount : r.count ≤ min r.count r.events.length +
          (i - (List.replicate (min r.count r.events.length) (default : α)).length) := by
        simp only [List.length_replicate]
        omega
      have := hfresh _ hidx hcount
      simpa [List.get_eq_getElem] using this

theorem reservoir_drain_spec_witness :
    (((Reservoir.new Nat 2).sample 7 0).1.drain).1.length =
      min ((Reservoir.new Nat 2).sample 7 0).1.count
        ((Reservoir.new Nat 2).sample 7 0).1.events.length ∧
    (((Reservoir.new Nat 2).sample 7 0).1.drain).2.count = 0 ∧
    (((Reservoir.new Nat 2).sample 7 0).1.drain).2.events = [0, 0] :=
  have h := reservoir_drain_spec ((Reservoir.new Nat 2).sample 7 0).1 (by decide)
  ⟨h.1, h.2.2.1, by rw [h.2.2.2]; decide⟩

/-- Ordering key used by drain_all's events.sort_unstable_by_key on the
arrival sequence number. -/
def seqLE (a b : Item) : Prop := a.1 ≤ b.1

instance : DecidableRel seqLE := fun a b => Nat.decLe a.1 b.1

instance : IsTotal Item seqLE := ⟨fun a b => Nat.le_total a.1 b.1⟩

instance : IsTrans Item seqLE := ⟨fun _ _ _ => Nat.le_trans⟩

/-- Sorting a batch by arrival sequence.  The source uses
sort_unstable_by_key(seq); over the distinct sequence numbers the engine
produces, every correct sort yields the same list, so insertion sort is an
adequate embedding. -/
def sortBySeq (l : List Item) : List Item := List.insertionSort seqLE l

/-- State of src/layer.rs (the smearing variant).  pending models the
std::vec::IntoIter by the suffix of items not yet yielded. -/
structure State where
  bucket_start : Nat
  seq : Nat
  reservoirs : List (Reservoir Item)
  pending : List Item
  last_release : Nat
deriving DecidableEq

/-- Stats counters (cumulative relaxed atomics in the source). -/
structure Stats where
  received : Nat
  sampled : Nat
  dropped : Nat
deriving DecidableEq

/-- Items currently retained by a reservoir: the first count slots, capped at
capacity.  This is exactly what Reservoir::drain yields. -/
def Reservoir.kept (r : Reservoir Item) : List Item := r.events.take r.count

/-- All retained items across a list of reservoirs, in reservoir order. -/
def occAll (rs : List (Reservoir Item)) : List Item := rs.flatMap Reservoir.kept

/-- SamplingLayer::drain_all — drain every reservoir into one batch, sort it
by arrival sequence. -/
def drain_all (st : State) : List Item × State :=
  (sortBySeq (st.reservoirs.flatMap (fun r => (Reservoir.drain r).1)),
    { st with reservoirs := st.reservoirs.map (fun r => (Reservoir.drain r).2) })

/-- SamplingLayer::smear_collect.  Times are Nat nanoseconds; the two
saturating subtractions mirror saturating_duration_since and the panic-free
monotonic duration_since; Duration division is floor division on nanos. -/
def smear_collect (st : State) (now : Nat) (bucket_duration : Nat) :
    List Item × State :=
  let n := st.pending.length
  if n = 0 then ([], st)
  else
    let remaining := st.bucket_start + bucket_duration - now
    let to_release :=
      if remaining = 0 then n
      else
        let interval := remaining / n
        if interval = 0 then n
        else (now - st.last_release) / interval
    if 0 < to_release then
      (st.pending.take to_release,
        { st with pending := st.pending.drop to_release, last_release := now })
    else ([], st)

/-- SamplingLayer::rotate_bucket — flush the rest of the pending queue into
the batch, drain the reservoirs, queue the drained batch, restart the
bucket clock. -/
def rotate_bucket (st : State) (batch : List Item) (now : Nat) :
    List Item × State :=
  let batch2 := batch ++ st.pending
  let d := drain_all { st with pending := [] }
  (batch2, { d.2 with pending := d.1, bucket_start := now, last_release := now })

/-- SamplingLayer::tick_smear — smear-release, rotate if the bucket elapsed,
then write the batch to the sink (write_events appends each buffer; an empty
batch writes nothing, which coincides with appending the empty batch). -/
def tick_smear (bucket_duration : Nat) (st : State) (sink : List Item)
    (now : Nat) : State × List Item :=
  let s := smear_collect st now bucket_duration
  let s2 :=
    if bucket_duration ≤ now - s.2.bucket_start then rotate_bucket s.2 s.1 now
    else (s.1, s.2)
  (s2.2, sink ++ s2.1)

/-- The cascade loop inside SamplingLayer::sample_event: iterate the
reservoirs from absolute index i, skipping those whose filter bit is unset;
a matching reservoir samples the current item, and the loop stops with none
(the sampled case) when the returned item is the empty sentinel, else the
returned item cascades on.  Falling off the end yields some leftover. -/
def cascadeFrom (draws : Nat → Nat) (matched : Nat) :
    Nat → List (Reservoir Item) → Item → List (Reservoir Item) × Option Item
  | _, [], cur => ([], some cur)
  | i, r :: rest, cur =>
    if matched.testBit i then
      let s := r.sample cur (draws i)
      if s.2.2 = [] then (s.1 :: rest, none)
      else
        let c := cascadeFrom draws matched (i + 1) rest s.2
        (s.1 :: c.1, c.2)
    else
      let c := cascadeFrom draws matched (i + 1) rest cur
      (r :: c.1, c.2)

/-- SamplingLayer::sample_event — assign the next sequence number, run the
cascade; on retention bump sampled, on fall-through bump dropped and recycle
the cleared leftover buffer into the thread-local cache. -/
def sample_event (st : State) (stats : Stats) (cache : List Nat)
    (bytes : List Nat) (matched : Nat) (draws : Nat → Nat) :
    State × Stats × List Nat :=
  let c := cascadeFrom draws matched 0 st.reservoirs (st.seq + 1, bytes)
  match c.2 with
  | none =>
      ({ st with seq := st.seq + 1, reservoirs := c.1 },
        { stats with sampled := stats.sampled + 1 }, cache)
  | some _ =>
      ({ st with seq := st.seq + 1, reservoirs := c.1 },
        { stats with dropped := stats.dropped + 1 }, [])

/-- The bitmask loop of SamplingLayer::match_filters, accumulating
matched |= 1 << i over the filters from index i upward. -/
def matchBitsAux (meta : Nat) : List (Nat → Bool) → Nat → Nat
  | [], _ => 0
  | f :: rest, i => (if f meta then 1 <<< i else 0) ||| matchBitsAux meta rest (i + 1)

/-- SamplingLayer::match_filters.  EnvFilter::enabled is an opaque
collaborator; each filter is embedded as a Boolean predicate on the event
metadata (here: the data the predicate inspects, as a Nat code). -/
def match_filters (filters : List (Nat → Bool)) (meta : Nat) : Nat :=
  matchBitsAux meta filters 0

/-- Immutable layer configuration relevant to the pipeline. -/
structure LayerCfg where
  filters : List (Nat → Bool)
  bucket_duration : Nat

/-- Mutable picture of one layer: the locked State, the stats counters, the
sink transcript (items written, in order) and the thread-local capture
buffer of the (single) emitting thread. -/
structure Machine where
  state : State
  stats : Stats
  sink : List Item
  cache : List Nat
deriving DecidableEq

/-- Inputs of one on_event call: the wall instant, the event metadata, the
bytes the formatter appends to the capture buffer, and the PRNG draws
consumed by the cascade (indexed by budget). -/
structure EvStep where
  now : Nat
  meta : Nat
  fmtOut : List Nat
  draws : Nat → Nat

/-- One observable operation driven by an emitting thread. -/
inductive Step where
  | ev : EvStep → Step
  | flush : Step

/-- SamplingLayer::on_event — filter match (return if the mask is zero),
account receipt, bucket tick, format (take the capture buffer; return if the
buffer is empty), then sample. -/
def on_event (cfg : LayerCfg) (m : Machine) (e : EvStep) : Machine :=
  let matched := match_filters cfg.filters e.meta
  if matched = 0 then m
  else
    let stats := { m.stats with received := m.stats.received + 1 }
    let t := tick_smear cfg.bucket_duration m.state m.sink e.now
    let bytes := m.cache ++ e.fmtOut
    if bytes = [] then
      { state := t.1, stats := stats, sink := t.2, cache := [] }
    else
      let s := sample_event t.1 stats [] bytes matched e.draws
      { state := s.1, stats := s.2.1, sink := t.2, cache := s.2.2 }

/-- SamplingLayer::flush — collect the pending queue, drain all reservoirs,
write pending then drained. -/
def flushM (m : Machine) : Machine :=
  let pending := m.state.pending
  let d := drain_all { m.state with pending := [] }
  { m with state := d.2, sink := m.sink ++ pending ++ d.1 }

/-- The write transcript of SamplingLayer::flush. -/
def flushWrites (m : Machine) : List Item :=
  m.state.pending ++ (drain_all { m.state with pending := [] }).1

/-- The write transcript of the Drop impl.  Mutex poisoning is modelled as a
Boolean: std's lock() returns Err exactly when poisoned, and the Drop impl
only drains under if let Ok(..), so a poisoned layer writes nothing. -/
def dropWrites (poisoned : Bool) (m : Machine) : List Item :=
  if poisoned then []
  else m.state.pending ++ (drain_all { m.state with pending := [] }).1

/-- Step interpreter for the pipeline. -/
def stepM (cfg : LayerCfg) (m : Machine) : Step → Machine
  | Step.ev e => on_event cfg m e
  | Step.flush => flushM m

/-- Run a whole trace of operations. -/
def run (cfg : LayerCfg) (m : Machine) (trace : List Step) : Machine :=
  trace.foldl (stepM cfg) m

/-- Modelled from the spec: the constructor of the smearing layer's initial
State is not under src (src/builder.rs builds the other draft's State, with
a bucket index instead of bucket_start/pending).  Per spec §3 and §6 the
layer starts with one empty reservoir per budget (capacity K_i via
Reservoir::new), arrival counter zero, an empty pending queue, and the build
instant as bucket start. -/
def initMachine (caps : List Nat) (t0 : Nat) : Machine :=
  { state :=
      { bucket_start := t0, seq := 0,
        reservoirs := caps.map (fun k => Reservoir.new Item k),
        pending := [], last_release := t0 },
    stats := { received := 0, sampled := 0, dropped := 0 },
    sink := [], cache := [] }

/-- Slot discipline of a reservoir holding real items: occupied slots hold
items with non-empty payloads, unoccupied slots hold the empty sentinel. -/
abbrev Reservoir.goodSlots (r : Reservoir Item) : Prop :=
  ∀ i, (h : i < r.events.length) →
    (i < r.count → (r.events.get ⟨i, h⟩).2 ≠ []) ∧
    (r.count ≤ i → r.events.get ⟨i, h⟩ = (default : Item))

theorem take_succ_set {α : Type} (l : List α) (k : Nat) (a : α) (h : k < l.length) :
    (l.set k a).take (k + 1) = l.take k ++ [a] := by
  induction l generalizing k with
  | nil => simp at h
  | cons x xs ih =>
    cases k with
    | zero => simp
    | succ k =>
      have h2 : k < xs.length := by simpa using h
      simp only [List.set_cons_succ, List.take_succ_cons, List.cons_append,
        List.cons.injEq, true_and]
      exact ih k h2

theorem set_get_append_perm {α : Type} (l : List α) (k : Nat) (a : α) (h : k < l.length) :
    List.Perm (l.set k a ++ [l.get ⟨k, h⟩]) (l ++ [a]) := by
  induction l generalizing k with
  | nil => simp at h
  | cons x xs ih =>
    cases k with
    | zero =>
      have p2 : List.Perm (a :: (xs ++ [x])) (a :: (x :: xs)) :=
        List.Perm.cons a (List.perm_append_singleton x xs)
      have p3 : List.Perm (a :: x :: xs) (x :: a :: xs) := List.Perm.swap x a xs
      have p4 : List.Perm (x :: a :: xs) (x :: (xs ++ [a])) :=
        List.Perm.cons x (List.perm_append_singleton a xs).symm
      simpa using (p2.trans p3).trans p4
    | succ k =>
      have h2 : k < xs.length := by simpa using h
      simpa using List.Perm.cons x (ih k h2)

theorem perm_snoc_mid {α : Type} (A B : List α) (x : α) :
    List.Perm (A ++ [x] ++ B) (A ++ B ++ [x]) := by
  have h1 : A ++ [x] ++ B = A ++ ([x] ++ B) := by simp
  have h2 : A ++ B ++ [x] = A ++ (B ++ [x]) := by simp
  rw [h1, h2]
  exact List.Perm.append_left A List.perm_append_comm

theorem sample_kept_nonfull (r : Reservoir Item) (cur : Item) (j : Nat)
    (hg : r.goodSlots) (hlt : r.count < r.events.length) :
    (r.sample cur j).2 = (default : Item) ∧
    (r.sample cur j).1.count = r.count + 1 ∧
    (r.sample cur j).1.events.length = r.events.length ∧
    (r.sample cur j).1.kept = r.kept ++ [cur] ∧
    (cur.2 ≠ [] → (r.sample cur j).1.goodSlots) := by
  have h1 : r.count + 1 - 1 < r.events.length := by omega
  unfold Reservoir.sample
  rw [dif_pos h1]
  refine ⟨?_, rfl, by simp, ?_, ?_⟩
  · have := (hg (r.count + 1 - 1) h1).2 (by omega)
    simpa using this
  · show (r.events.set (r.count + 1 - 1) cur).take (r.count + 1) = r.events.take r.count ++ [cur]
    have he : r.count + 1 - 1 = r.count := by omega
    rw [he]
    exact take_succ_set r.events r.count cur hlt
  · intro hcur i hi
    dsimp only at hi ⊢
    simp only [Nat.add_sub_cancel] at hi ⊢
    have hi' : i < r.events.length := by simpa using hi
    constructor
    · intro hic
      simp only [List.get_eq_getElem, List.getElem_set]
      by_cases he : r.count = i
      · simpa [he] using hcur
      · have hic2 : i < r.count := by omega
        have := (hg i hi').1 hic2
        simp only [List.get_eq_getElem] at this
        simpa [he] using this
    · intro hic
      simp only [List.get_eq_getElem, List.getElem_set]
      have he : ¬ r.count = i := by omega
      have := (hg i hi').2 (by omega)
      simp only [List.get_eq_getElem] at this
      simpa [he] using this

theorem sample_kept_full (r : Reservoir Item) (cur : Item) (j : Nat)
    (hg : r.goodSlots) (hge : r.events.length ≤ r.count) (hcur : cur.2 ≠ []) :
    (r.sample cur j).2.2 ≠ [] ∧
    (r.sample cur j).1.count = r.count + 1 ∧
    (r.sample cur j).1.events.length = r.events.length ∧
    List.Perm ((r.sample cur j).1.kept ++ [(r.sample cur j).2]) (r.kept ++ [cur]) ∧
    (r.sample cur j).1.goodSlots := by
  have h1 : ¬ r.count + 1 - 1 < r.events.length := by omega
  have hkr : r.kept = r.events := List.take_of_length_le hge
  unfold Reservoir.sample
  rw [dif_neg h1]
  by_cases h2 : j < r.events.length
  · rw [dif_pos h2]
    refine ⟨?_, rfl, by simp, ?_, ?_⟩
    · have := (hg j h2).1 (by omega)
      simpa using this
    · have hk2 : Reservoir.kept
          { count := r.count + 1, events := r.events.set j cur } =
          r.events.set j cur := by
        unfold Reservoir.kept
        exact List.take_of_length_le (by simp; omega)
      rw [hk2, hkr]
      exact set_get_append_perm r.events j cur h2
    · intro i hi
      dsimp only at hi ⊢
      have hi' : i < r.events.length := by simpa using hi
      constructor
      · intro _
        simp only [List.get_eq_getElem, List.getElem_set]
        by_cases he : j = i
        · simpa [he] using hcur
        · have := (hg i hi').1 (by omega)
          simp only [List.get_eq_getElem] at this
          simpa [he] using this
      · intro hic
        omega
  · rw [dif_neg h2]
    refine ⟨hcur, rfl, rfl, ?_, ?_⟩
    · have hk2 : Reservoir.kept { count := r.count + 1, events := r.events } =
          r.events := List.take_of_length_le (by simp; omega)
      rw [hk2, hkr]
    · intro i hi
      dsimp only at hi ⊢
      refine ⟨fun _ => ?_, fun hic => by omega⟩
      have := (hg i hi).1 (by omega)
      simpa using this

theorem occAll_cons (r : Reservoir Item) (rs : List (Reservoir Item)) :
    occAll (r :: rs) = r.kept ++ occAll rs := by
  simp [occAll]

theorem occAll_nil : occAll [] = [] := rfl

theorem cascadeFrom_spec (draws : Nat → Nat) (matched : Nat) :
    ∀ (rs : List (Reservoir Item)) (i : Nat) (cur : Item),
      (∀ r ∈ rs, r.goodSlots) → cur.2 ≠ [] →
      ∀ rs2 res, cascadeFrom draws matched i rs cur = (rs2, res) →
        rs2.length = rs.length ∧
        (∀ r ∈ rs2, r.goodSlots) ∧
        (∀ k, (hk : k < rs.length) → (hk2 : k < rs2.length) →
          matched.testBit (i + k) = false →
          rs2.get ⟨k, hk2⟩ = rs.get ⟨k, hk⟩) ∧
        (res = none →
          List.Perm (occAll rs2) (occAll rs ++ [cur]) ∧
          ∃ k, ∃ hk : k < rs.length, matched.testBit (i + k) = true ∧
            ∀ m, (hm : m < rs.length) → (hm2 : m < rs2.length) → k < m →
              rs2.get ⟨m, hm2⟩ = rs.get ⟨m, hm⟩) ∧
        (∀ left, res = some left →
          left.2 ≠ [] ∧ List.Perm (occAll rs2 ++ [left]) (occAll rs ++ [cur])) := by
  intro rs
  induction rs with
  | nil =>
    intro i cur hg hcur rs2 res heq
    unfold cascadeFrom at heq
    injection heq with h1 h2
    subst h1
    subst h2
    refine ⟨rfl, by simp, ?_, ?_, ?_⟩
    · intro k hk
      simp at hk
    · intro h
      simp at h
    · intro left hl
      injection hl with hl
      subst hl
      exact ⟨hcur, List.Perm.refl _⟩
  | cons r rest ih =>
    intro i cur hg hcur rs2 res heq
    have hgr : r.goodSlots := hg r (by simp)
    have hgrest : ∀ q ∈ rest, q.goodSlots := fun q hq => hg q (by simp [hq])
    by_cases hbit : matched.testBit i
    · rw [cascadeFrom, if_pos hbit] at heq
      by_cases hemp : (r.sample cur (draws i)).2.2 = []
      · rw [if_pos hemp] at heq
        injection heq with h1 h2
        subst h1
        subst h2
        have hlt : r.count < r.events.length := by
          by_contra hge
          have := (sample_kept_full r cur (draws i) hgr (by omega) hcur).1
          exact this hemp
        obtain ⟨hdef, hcnt, hlen, hkept, hgood⟩ :=
          sample_kept_nonfull r cur (draws i) hgr hlt
        refine ⟨by simp, ?_, ?_, ?_, ?_⟩
        · intro q hq
          rcases List.mem_cons.mp hq with hq | hq
          · subst hq
            exact hgood hcur
          · exact hgrest q hq
        · intro k hk hk2 hf
          cases k with
          | zero =>
            rw [Nat.add_zero] at hf
            rw [hbit] at hf
            cases hf
          | succ k =>
            simp [List.get_eq_getElem, List.getElem_cons_succ]
        · intro _
          constructor
          · rw [occAll_cons, occAll_cons, hkept]
            exact perm_snoc_mid r.kept (occAll rest) cur
          · refine ⟨0, by simp, by simpa using hbit, ?_⟩
            intro m hm hm2 hmpos
            cases m with
            | zero => omega
            | succ m => simp [List.get_eq_getElem, List.getElem_cons_succ]
        · intro left hl
          cases hl
      · rw [if_neg hemp] at heq
        have hge : r.events.length ≤ r.count := by
          by_contra hlt2
          have := (sample_kept_nonfull r cur (draws i) hgr (by omega)).1
          rw [this] at hemp
          exact hemp rfl
        obtain ⟨hne, hcnt, hlen, hperm, hgood⟩ :=
          sample_kept_full r cur (draws i) hgr hge hcur
        obtain ⟨c1, c2, hc⟩ :
            ∃ c1 c2, cascadeFrom draws matched (i + 1) rest
              ((r.sample cur (draws i)).2) = (c1, c2) :=
          ⟨_, _, rfl⟩
        rw [hc] at heq
        dsimp only at heq
        injection heq with h1 h2
        subst h1
        subst h2
        obtain ⟨ihlen, ihgood, ihframe, ihnone, ihsome⟩ :=
          ih (i + 1) ((r.sample cur (draws i)).2) hgrest hne c1 c2 hc
        refine ⟨by simp [ihlen], ?_, ?_, ?_, ?_⟩
        · intro q hq
          rcases List.mem_cons.mp hq with hq | hq
          · subst hq
            exact hgood
          · exact ihgood q hq
        · intro k hk hk2 hf
          cases k with
          | zero =>
            rw [Nat.add_zero] at hf
            rw [hbit] at hf
            cases hf
          | succ k =>
            have hf2 : matched.testBit (i + 1 + k) = false := by
              have : i + 1 + k = i + (k + 1) := by omega
              rw [this]
              exact hf
            have hk' : k < rest.length := by simpa using hk
            have hk2' : k < c1.length := by simpa using hk2
            have := ihframe k hk' hk2' hf2
            simpa [List.get_eq_getElem] using this
        · intro hnone
          obtain ⟨hp, k, hkl, hkb, hafter⟩ := ihnone hnone
          constructor
          · rw [occAll_cons, occAll_cons]
            have s1 : List.Perm ((r.sample cur (draws i)).1.kept ++ occAll c1)
                ((r.sample cur (draws i)).1.kept ++ (occAll rest ++
                  [(r.sample cur (draws i)).2])) :=
              List.Perm.append_left _ hp
            have s2 : List.Perm ((r.sample cur (draws i)).1.kept ++
                  (occAll rest ++ [(r.sample cur (draws i)).2]))
                ((r.sample cur (draws i)).1.kept ++ [(r.sample cur (draws i)).2]
                  ++ occAll rest) := by
              have := perm_snoc_mid ((r.sample cur (draws i)).1.kept)
                (occAll rest) ((r.sample cur (draws i)).2)
              have h3 : (r.sample cur (draws i)).1.kept ++ (occAll rest ++
                  [(r.sample cur (draws i)).2]) = (r.sample cur (draws i)).1.kept
                  ++ occAll rest ++ [(r.sample cur (draws i)).2] := by simp
              rw [h3]
              exact this.symm
            have s3 : List.Perm ((r.sample cur (draws i)).1.kept ++
                  [(r.sample cur (draws i)).2] ++ occAll rest)
                (r.kept ++ [cur] ++ occAll rest) :=
              List.Perm.append_right _ hperm
            have s4 : List.Perm (r.kept ++ [cur] ++ occAll rest)
                (r.kept ++ occAll rest ++ [cur]) :=
              perm_snoc_mid r.kept (occAll rest) cur
            exact ((s1.trans s2).trans s3).trans s4
          · refine ⟨k + 1, by simpa using hkl, ?_, ?_⟩
            · have : i + (k + 1) = i + 1 + k := by omega
              rw [this]
              exact hkb
            · intro m hm hm2 hkm
              cases m with
              | zero => omega
              | succ m =>
                have hm' : m < rest.length := by simpa using hm
                have hm2' : m < c1.length := by simpa using hm2
                have := hafter m hm' hm2' (by omega)
                simpa [List.get_eq_getElem] using this
        · intro left hl
          subst hl
          obtain ⟨hlne, hp⟩ := ihsome left rfl
          refine ⟨hlne, ?_⟩
          rw [occAll_cons, occAll_cons]
          have s1 : List.Perm ((r.sample cur (draws i)).1.kept ++ occAll c1 ++ [left])
              ((r.sample cur (draws i)).1.kept ++ (occAll rest ++
                [(r.sample cur (draws i)).2])) := by
            have h3 : (r.sample cur (draws i)).1.kept ++ occAll c1 ++ [left] =
                (r.sample cur (draws i)).1.kept ++ (occAll c1 ++ [left]) := by simp
            rw [h3]
            exact List.Perm.append_left _ hp
          have s2 : List.Perm ((r.sample cur (draws i)).1.kept ++
                (occAll rest ++ [(r.sample cur (draws i)).2]))
              ((r.sample cur (draws i)).1.kept ++ [(r.sample cur (draws i)).2]
                ++ occAll rest) := by
            have := perm_snoc_mid ((r.sample cur (draws i)).1.kept)
              (occAll rest) ((r.sample cur (draws i)).2)
            have h3 : (r.sample cur (draws i)).1.kept ++ (occAll rest ++
                [(r.sample cur (draws i)).2]) = (r.sample cur (draws i)).1.kept
                ++ occAll rest ++ [(r.sample cur (draws i)).2] := by simp
            rw [h3]
            exact this.symm
          have s3 : List.Perm ((r.sample cur (draws i)).1.kept ++
                [(r.sample cur (draws i)).2] ++ occAll rest)
              (r.kept ++ [cur] ++ occAll rest) :=
            List.Perm.append_right _ hperm
          have s4 : List.Perm (r.kept ++ [cur] ++ occAll rest)
              (r.kept ++ occAll rest ++ [cur]) :=
            perm_snoc_mid r.kept (occAll rest) cur
          exact ((s1.trans s2).trans s3).trans s4
    · rw [cascadeFrom, if_neg hbit] at heq
      obtain ⟨c1, c2, hc⟩ :
          ∃ c1 c2, cascadeFrom draws matched (i + 1) rest cur = (c1, c2) :=
        ⟨_, _, rfl⟩
      rw [hc] at heq
      dsimp only at heq
      injection heq with h1 h2
      subst h1
      subst h2
      obtain ⟨ihlen, ihgood, ihframe, ihnone, ihsome⟩ :=
        ih (i + 1) cur hgrest hcur c1 c2 hc
      refine ⟨by simp [ihlen], ?_, ?_, ?_, ?_⟩
      · intro q hq
        rcases List.mem_cons.mp hq with hq | hq
        · subst hq
          exact hgr
        · exact ihgood q hq
      · intro k hk hk2 hf
        cases k with
        | zero => simp [List.get_eq_getElem]
        | succ k =>
          have hf2 : matched.testBit (i + 1 + k) = false := by
            have : i + 1 + k = i + (k + 1) := by omega
            rw [this]
            exact hf
          have hk' : k < rest.length := by simpa using hk
          have hk2' : k < c1.length := by simpa using hk2
          have := ihframe k hk' hk2' hf2
          simpa [List.get_eq_getElem] using this
      · intro hnone
        obtain ⟨hp, k, hkl, hkb, hafter⟩ := ihnone hnone
        constructor
        · rw [occAll_cons, occAll_cons]
          have h3 : r.kept ++ (occAll rest ++ [cur]) =
              r.kept ++ occAll rest ++ [cur] := by simp
          have := List.Perm.append_left r.kept hp
          rw [h3] at this
          exact this
        · refine ⟨k + 1, by simpa using hkl, ?_, ?_⟩
          · have : i + (k + 1) = i + 1 + k := by omega
            rw [this]
            exact hkb
          · intro m hm hm2 hkm
            cases m with
            | zero => omega
            | succ m =>
              have hm' : m < rest.length := by simpa using hm
              have hm2' : m < c1.length := by simpa using hm2
              have := hafter m hm' hm2' (by omega)
              simpa [List.get_eq_getElem] using this
      · intro left hl
        subst hl
        obtain ⟨hlne, hp⟩ := ihsome left rfl
        refine ⟨hlne, ?_⟩
        rw [occAll_cons, occAll_cons]
        have h3 : r.kept ++ occAll c1 ++ [left] =
            r.kept ++ (occAll c1 ++ [left]) := by simp
        have h4 : r.kept ++ (occAll rest ++ [cur]) =
            r.kept ++ occAll rest ++ [cur] := by simp
        rw [h3, ← h4]
        exact List.Perm.append_left r.kept hp

/-- C2: with a non-zero mask and a non-empty formatted item, sample_event
offers the item to the matching reservoirs in declaration order: unmatched
reservoirs are untouched; either some matching reservoir retains the current
item — sampled is incremented exactly once, the cache is untouched, every
reservoir past the stopping index is untouched, and the retained items are
the old ones plus the new item — or the item cascades through every matching
budget (each displaced item becoming the next current item, witnessed by the
conservation permutation with the final leftover) and dropped is incremented
exactly once with the leftover's buffer cleared and recycled into the
thread-local cache. -/
theorem sample_event_spec (st : State) (stats : Stats) (cache : List Nat)
    (bytes : List Nat) (matched : Nat) (draws : Nat → Nat)
    (hg : ∀ r ∈ st.reservoirs, r.goodSlots) (hb : bytes ≠ []) :
    ((sample_event st stats cache bytes matched draws).1.seq = st.seq + 1) ∧
    ((sample_event st stats cache bytes matched draws).2.1.received = stats.received) ∧
    ((sample_event st stats cache bytes matched draws).1.reservoirs.length =
      st.reservoirs.length) ∧
    (∀ k, (hk : k < st.reservoirs.length) →
      (hk2 : k < (sample_event st stats cache bytes matched draws).1.reservoirs.length) →
      matched.testBit k = false →
      (sample_event st stats cache bytes matched draws).1.reservoirs.get ⟨k, hk2⟩ =
        st.reservoirs.get ⟨k, hk⟩) ∧
    (((sample_event st stats cache bytes matched draws).2.1.sampled = stats.sampled + 1 ∧
      (sample_event st stats cache bytes matched draws).2.1.dropped = stats.dropped ∧
      (sample_event st stats cache bytes matched draws).2.2 = cache ∧
      List.Perm (occAll (sample_event st stats cache bytes matched draws).1.reservoirs)
        (occAll st.reservoirs ++ [(st.seq + 1, bytes)]) ∧
      ∃ k, ∃ hk : k < st.reservoirs.length, matched.testBit k = true ∧
        ∀ m, (hm : m < st.reservoirs.length) →
          (hm2 : m < (sample_event st stats cache bytes matched draws).1.reservoirs.length) →
          k < m →
          (sample_event st stats cache bytes matched draws).1.reservoirs.get ⟨m, hm2⟩ =
            st.reservoirs.get ⟨m, hm⟩) ∨
     ((sample_event st stats cache bytes matched draws).2.1.sampled = stats.sampled ∧
      (sample_event st stats cache bytes matched draws).2.1.dropped = stats.dropped + 1 ∧
      (sample_event st stats cache bytes matched draws).2.2 = [] ∧
      ∃ left : Item, left.2 ≠ [] ∧
        List.Perm
          (occAll (sample_event st stats cache bytes matched draws).1.reservoirs ++ [left])
          (occAll st.reservoirs ++ [(st.seq + 1, bytes)]))) := by
  obtain ⟨c1, c2, hc⟩ : ∃ c1 c2,
      cascadeFrom draws matched 0 st.reservoirs (st.seq + 1, bytes) = (c1, c2) :=
    ⟨_, _, rfl⟩
  have hb2 : ((st.seq + 1, bytes) : Item).2 ≠ [] := hb
  obtain ⟨hlen, hgood2, hframe, hnone, hsome⟩ :=
    cascadeFrom_spec draws matched st.reservoirs 0 (st.seq + 1, bytes) hg hb2 c1 c2 hc
  cases c2 with
  | none =>
    have hse : sample_event st stats cache bytes matched draws =
        ({ st with seq := st.seq + 1, reservoirs := c1 },
          { stats with sampled := stats.sampled + 1 }, cache) := by
      unfold sample_event
      rw [hc]
    rw [hse]
    obtain ⟨hp, k, hkl, hkb, hafter⟩ := hnone rfl
    refine ⟨rfl, rfl, hlen, ?_, Or.inl ⟨rfl, rfl, rfl, hp, k, hkl, by simpa using hkb, ?_⟩⟩
    · intro k2 hk hk2 hf
      exact hframe k2 hk hk2 (by simpa using hf)
    · intro m hm hm2 hkm
      exact hafter m hm hm2 hkm
  | some left =>
    have hse : sample_event st stats cache bytes matched draws =
        ({ st with seq := st.seq + 1, reservoirs := c1 },
          { stats with dropped := stats.dropped + 1 }, []) := by
      unfold sample_event
      rw [hc]
    rw [hse]
    obtain ⟨hlne, hp⟩ := hsome left rfl
    refine ⟨rfl, rfl, hlen, ?_, Or.inr ⟨rfl, rfl, rfl, left, hlne, hp⟩⟩
    intro k2 hk hk2 hf
    exact hframe k2 hk hk2 (by simpa using hf)

theorem sample_event_spec_witness :
    (sample_event
      { bucket_start := 0, seq := 0, reservoirs := [Reservoir.new Item 1],
        pending := [], last_release := 0 }
      { received := 4, sampled := 1, dropped := 2 } [9] [7] 1 (fun _ => 0)).1.seq = 1 ∧
    (sample_event
      { bucket_start := 0, seq := 0, reservoirs := [Reservoir.new Item 1],
        pending := [], last_release := 0 }
      { received := 4, sampled := 1, dropped := 2 } [9] [7] 1 (fun _ => 0)).2.1.received = 4 :=
  ⟨(sample_event_spec
      { bucket_start := 0, seq := 0, reservoirs := [Reservoir.new Item 1],
        pending := [], last_release := 0 }
      { received := 4, sampled := 1, dropped := 2 } [9] [7] 1 (fun _ => 0)
      (by
        intro r hr
        rw [List.mem_singleton] at hr
        subst hr
        decide) (by decide)).1,
    (sample_event_spec
      { bucket_start := 0, seq := 0, reservoirs := [Reservoir.new Item 1],
        pending := [], last_release := 0 }
      { received := 4, sampled := 1, dropped := 2 } [9] [7] 1 (fun _ => 0)
      (by
        intro r hr
        rw [List.mem_singleton] at hr
        subst hr
        decide) (by decide)).2.1⟩

/-- C7: with n > 0 items pending, a smear tick before the deadline with a
non-zero interval releases exactly min(n, (now - last_release) / interval)
items, where interval = (deadline - now) / n, taken from the front of the
queue (queue order), leaving the rest pending; and whenever the interval
computation yields zero — in particular at or past the deadline — all n
remaining pending items are released at once. -/
theorem smear_collect_spec (st : State) (now D : Nat)
    (hn : 0 < st.pending.length) :
    (now < st.bucket_start + D →
      (st.bucket_start + D - now) / st.pending.length ≠ 0 →
      (smear_collect st now D).1 =
        st.pending.take ((now - st.last_release) /
          ((st.bucket_start + D - now) / st.pending.length)) ∧
      (smear_collect st now D).1.length =
        min st.pending.length ((now - st.last_release) /
          ((st.bucket_start + D - now) / st.pending.length)) ∧
      (smear_collect st now D).2.pending =
        st.pending.drop ((now - st.last_release) /
          ((st.bucket_start + D - now) / st.pending.length))) ∧
    ((st.bucket_start + D - now) / st.pending.length = 0 →
      (smear_collect st now D).1 = st.pending ∧
      (smear_collect st now D).2.pending = []) := by
  have hne : ¬ st.pending.length = 0 := by omega
  constructor
  · intro hlt hInz
    have hR : ¬ (st.bucket_start + D - now) = 0 := by omega
    unfold smear_collect
    simp only [if_neg hne, if_neg hR, if_neg hInz]
    by_cases hT :
        0 < (now - st.last_release) /
          ((st.bucket_start + D - now) / st.pending.length)
    · rw [if_pos hT]
      exact ⟨rfl, by simp [List.length_take, Nat.min_comm], rfl⟩
    · rw [if_neg hT]
      have hz : (now - st.last_release) /
          ((st.bucket_start + D - now) / st.pending.length) = 0 :=
        Nat.eq_zero_of_not_pos hT
      rw [hz]
      exact ⟨by simp, by simp [Nat.min_comm], by simp⟩
  · intro hI0
    unfold smear_collect
    simp only [if_neg hne]
    by_cases hR : (st.bucket_start + D - now) = 0
    · rw [if_pos hR, if_pos hn]
      exact ⟨List.take_length _, List.drop_length _⟩
    · rw [if_neg hR, if_pos hI0, if_pos hn]
      exact ⟨List.take_length _, List.drop_length _⟩

theorem smear_collect_spec_witness :
    (smear_collect
      { bucket_start := 0, seq := 2, reservoirs := [],
        pending := [(1, [1]), (2, [2])], last_release := 0 } 10 25).1 = [(1, [1])] ∧
    (smear_collect
      { bucket_start := 0, seq := 2, reservoirs := [],
        pending := [(1, [1]), (2, [2])], last_release := 0 } 10 25).2.pending =
      [(2, [2])] :=
  have h := (smear_collect_spec
    { bucket_start := 0, seq := 2, reservoirs := [],
      pending := [(1, [1]), (2, [2])], last_release := 0 } 10 25
    (by decide)).1 (by decide) (by decide)
  ⟨h.1.trans (by decide), h.2.2.trans (by decide)⟩

/-- C8 counterexample: when the State mutex is poisoned the Drop impl's
if let Ok(..) guard skips the drain entirely — a layer still holding one
pending item writes nothing at teardown, while flush would write that item,
so a poisoned teardown does not perform a (best-effort) drain. -/
theorem drop_poisoned_counterexample :
    dropWrites true
      { state :=
          { bucket_start := 0, seq := 1, reservoirs := [],
            pending := [(1, [7])], last_release := 0 },
        stats := { received := 1, sampled := 1, dropped := 0 },
        sink := [], cache := [] } = [] ∧
    flushWrites
      { state :=
          { bucket_start := 0, seq := 1, reservoirs := [],
            pending := [(1, [7])], last_release := 0 },
        stats := { received := 1, sampled := 1, dropped := 0 },
        sink := [], cache := [] } = [(1, [7])] := by
  constructor
  · rfl
  · decide

/-- C8 amended: with an unpoisoned lock, teardown writes exactly what flush
writes (pending queue first, then the sorted drained batch) and then the
layer is destroyed; with a poisoned lock teardown writes nothing (the drain
is skipped) and returns normally. -/
theorem drop_flush_equiv (m : Machine) :
    dropWrites false m = flushWrites m ∧ dropWrites true m = [] :=
  ⟨rfl, rfl⟩

/-- C9: an event whose mask is zero is discarded up front: on_event returns
before formatting and before touching the State, so the machine — stats
counters, reservoirs, pending queue, sink, cache — is left unchanged; hence
a whole trace of unmatched events is a no-op. -/
theorem on_event_no_match_run (cfg : LayerCfg) (m : Machine) (events : List EvStep)
    (h : ∀ e ∈ events, match_filters cfg.filters e.meta = 0) :
    run cfg m (events.map Step.ev) = m := by
  induction events generalizing m with
  | nil => rfl
  | cons e rest ih =>
    have he : match_filters cfg.filters e.meta = 0 := h e (by simp)
    have hone : on_event cfg m e = m := by
      simp [on_event, he]
    have hrun : run cfg m (List.map Step.ev (e :: rest)) =
        run cfg (on_event cfg m e) (List.map Step.ev rest) := rfl
    rw [hrun, hone]
    exact ih m (fun e2 h2 => h e2 (List.mem_cons_of_mem e h2))

theorem on_event_no_match_run_witness :
    run { filters := [fun lvl => lvl == 1], bucket_duration := 1000000000 }
      (initMachine [100] 0)
      ((List.replicate 50
        { now := 0, meta := 4, fmtOut := [1], draws := fun _ => 0 }).map Step.ev) =
      initMachine [100] 0 :=
  on_event_no_match_run _ _ _ (by
    intro e he
    have h2 := List.eq_of_mem_replicate he
    subst h2
    decide)

/-- Count of trace events that match some filter but format to an empty
buffer — the events on_event abandons after the tick without touching
sampled or dropped. -/
def fmtFailCount (cfg : LayerCfg) : List Step → Nat
  | [] => 0
  | Step.flush :: rest => fmtFailCount cfg rest
  | Step.ev e :: rest =>
      (if match_filters cfg.filters e.meta ≠ 0 ∧ e.fmtOut = [] then 1 else 0) +
        fmtFailCount cfg rest

theorem sample_event_stats (st : State) (stats : Stats) (cache : List Nat)
    (bytes : List Nat) (matched : Nat) (draws : Nat → Nat) :
    (sample_event st stats cache bytes matched draws).2.1.received =
      stats.received ∧
    (sample_event st stats cache bytes matched draws).2.1.sampled +
      (sample_event st stats cache bytes matched draws).2.1.dropped =
      stats.sampled + stats.dropped + 1 ∧
    ((sample_event st stats cache bytes matched draws).2.2 = cache ∨
      (sample_event st stats cache bytes matched draws).2.2 = []) := by
  obtain ⟨c1, c2, hc⟩ : ∃ c1 c2,
      cascadeFrom draws matched 0 st.reservoirs (st.seq + 1, bytes) = (c1, c2) :=
    ⟨_, _, rfl⟩
  cases c2 with
  | none =>
    have hse : sample_event st stats cache bytes matched draws =
        ({ st with seq := st.seq + 1, reservoirs := c1 },
          { stats with sampled := stats.sampled + 1 }, cache) := by
      unfold sample_event
      rw [hc]
    rw [hse]
    refine ⟨rfl, ?_, Or.inl rfl⟩
    dsimp only
    omega
  | some left =>
    have hse : sample_event st stats cache bytes matched draws =
        ({ st with seq := st.seq + 1, reservoirs := c1 },
          { stats with dropped := stats.dropped + 1 }, []) := by
      unfold sample_event
      rw [hc]
    rw [hse]
    refine ⟨rfl, ?_, Or.inr rfl⟩
    dsimp only
    omega

theorem on_event_stats_step (cfg : LayerCfg) (m : Machine) (e : EvStep)
    (hc : m.cache = []) :
    (on_event cfg m e).cache = [] ∧
    (on_event cfg m e).stats.received + m.stats.sampled + m.stats.dropped =
      m.stats.received + (on_event cfg m e).stats.sampled +
        (on_event cfg m e).stats.dropped +
        (if match_filters cfg.filters e.meta ≠ 0 ∧ e.fmtOut = [] then 1 else 0) := by
  by_cases hm : match_filters cfg.filters e.meta = 0
  · have hone : on_event cfg m e = m := by simp [on_event, hm]
    have hcond : ¬ (match_filters cfg.filters e.meta ≠ 0 ∧ e.fmtOut = []) :=
      fun hcon => hcon.1 hm
    rw [hone, if_neg hcond]
    exact ⟨hc, by omega⟩
  · by_cases hf : e.fmtOut = []
    · have hbytes : m.cache ++ e.fmtOut = [] := by rw [hc, hf]; rfl
      have hone : on_event cfg m e =
          { state := (tick_smear cfg.bucket_duration m.state m.sink e.now).1,
            stats := { m.stats with received := m.stats.received + 1 },
            sink := (tick_smear cfg.bucket_duration m.state m.sink e.now).2,
            cache := [] } := by
        simp only [on_event]
        rw [if_neg hm, if_pos hbytes]
      have hcond : match_filters cfg.filters e.meta ≠ 0 ∧ e.fmtOut = [] := ⟨hm, hf⟩
      rw [hone, if_pos hcond]
      refine ⟨rfl, ?_⟩
      dsimp only
      omega
    · have hbytes : ¬ m.cache ++ e.fmtOut = [] := by
        rw [hc]
        simpa using hf
      have hone : on_event cfg m e =
          { state := (sample_event
              (tick_smear cfg.bucket_duration m.state m.sink e.now).1
              { m.stats with received := m.stats.received + 1 } []
              (m.cache ++ e.fmtOut) (match_filters cfg.filters e.meta) e.draws).1,
            stats := (sample_event
              (tick_smear cfg.bucket_duration m.state m.sink e.now).1
              { m.stats with received := m.stats.received + 1 } []
              (m.cache ++ e.fmtOut) (match_filters cfg.filters e.meta) e.draws).2.1,
            sink := (tick_smear cfg.bucket_duration m.state m.sink e.now).2,
            cache := (sample_event
              (tick_smear cfg.bucket_duration m.state m.sink e.now).1
              { m.stats with received := m.stats.received + 1 } []
              (m.cache ++ e.fmtOut) (match_filters cfg.filters e.meta) e.draws).2.2 } := by
        simp only [on_event]
        rw [if_neg hm, if_neg hbytes]
      have hcond : ¬ (match_filters cfg.filters e.meta ≠ 0 ∧ e.fmtOut = []) :=
        fun hcon => hf hcon.2
      obtain ⟨hrec, hsd, hcache⟩ := sample_event_stats
        (tick_smear cfg.bucket_duration m.state m.sink e.now).1
        { m.stats with received := m.stats.received + 1 } []
        (m.cache ++ e.fmtOut) (match_filters cfg.filters e.meta) e.draws
      rw [hone, if_neg hcond]
      constructor
      · rcases hcache with h | h
        · exact h
        · exact h
      · have hrec2 : (sample_event
            (tick_smear cfg.bucket_duration m.state m.sink e.now).1
            { m.stats with received := m.stats.received + 1 } []
            (m.cache ++ e.fmtOut) (match_filters cfg.filters e.meta)
            e.draws).2.1.received = m.stats.received + 1 := hrec
        dsimp only at hrec2 hsd ⊢
        omega

theorem run_stats_accounting (cfg : LayerCfg) :
    ∀ (trace : List Step) (m : Machine), m.cache = [] →
      (run cfg m trace).cache = [] ∧
      (run cfg m trace).stats.received + m.stats.sampled + m.stats.dropped =
        m.stats.received + (run cfg m trace).stats.sampled +
          (run cfg m trace).stats.dropped + fmtFailCount cfg trace := by
  intro trace
  induction trace with
  | nil =>
    intro m hc
    exact ⟨hc, by simp [fmtFailCount, run]⟩
  | cons s rest ih =>
    intro m hc
    cases s with
    | flush =>
      have h1 : run cfg m (Step.flush :: rest) = run cfg (flushM m) rest := rfl
      have hfl2 : (flushM m).stats = m.stats := rfl
      rw [h1]
      obtain ⟨ih1, ih2⟩ := ih (flushM m) hc
      refine ⟨ih1, ?_⟩
      rw [hfl2] at ih2
      simpa [fmtFailCount] using ih2
    | ev e =>
      have h1 : run cfg m (Step.ev e :: rest) = run cfg (on_event cfg m e) rest := rfl
      obtain ⟨hcache, hstep⟩ := on_event_stats_step cfg m e hc
      obtain ⟨ih1, ih2⟩ := ih (on_event cfg m e) hcache
      rw [h1]
      refine ⟨ih1, ?_⟩
      show (run cfg (on_event cfg m e) rest).stats.received + m.stats.sampled +
          m.stats.dropped =
        m.stats.received + (run cfg (on_event cfg m e) rest).stats.sampled +
          (run cfg (on_event cfg m e) rest).stats.dropped +
          ((if match_filters cfg.filters e.meta ≠ 0 ∧ e.fmtOut = [] then 1 else 0) +
            fmtFailCount cfg rest)
      generalize hF : (if match_filters cfg.filters e.meta ≠ 0 ∧ e.fmtOut = []
        then 1 else 0) = F at hstep ⊢
      omega

/-- C5 counterexample: a single event that matches the only budget but whose
formatter yields an empty buffer bumps received while leaving sampled and
dropped at zero — on_event returns after the empty-buffer check without any
dropped accounting, so received = sampled + dropped fails at quiescence. -/
theorem stats_invariant_counterexample :
    (run { filters := [fun _ => true], bucket_duration := 1000000000 }
        (initMachine [1] 0)
        [Step.ev { now := 0, meta := 0, fmtOut := [], draws := fun _ => 0 }]).stats.received
      = 1 ∧
    (run { filters := [fun _ => true], bucket_duration := 1000000000 }
        (initMachine [1] 0)
        [Step.ev { now := 0, meta := 0, fmtOut := [], draws := fun _ => 0 }]).stats.sampled
      = 0 ∧
    (run { filters := [fun _ => true], bucket_duration := 1000000000 }
        (initMachine [1] 0)
        [Step.ev { now := 0, meta := 0, fmtOut := [], draws := fun _ => 0 }]).stats.dropped
      = 0 ∧
    (run { filters := [fun _ => true], bucket_duration := 1000000000 }
        (initMachine [1] 0)
        [Step.ev { now := 0, meta := 0, fmtOut := [], draws := fun _ => 0 }]).stats.received
      ≠
      (run { filters := [fun _ => true], bucket_duration := 1000000000 }
          (initMachine [1] 0)
          [Step.ev { now := 0, meta := 0, fmtOut := [], draws := fun _ => 0 }]).stats.sampled
        +
        (run { filters := [fun _ => true], bucket_duration := 1000000000 }
            (initMachine [1] 0)
            [Step.ev { now := 0, meta := 0, fmtOut := [], draws := fun _ => 0 }]).stats.dropped := by
  refine ⟨?_, ?_, ?_, ?_⟩ <;> decide

/-- C5 amended: whenever no event is mid-pipeline, the counters satisfy
received = sampled + dropped + F, where F counts the received events whose
formatter produced an empty buffer: such events increment received, but the
code returns without incrementing dropped (and without recycling through
return_captured), so they are permanently unaccounted by sampled/dropped. -/
theorem stats_accounting (cfg : LayerCfg) (caps : List Nat) (t0 : Nat)
    (trace : List Step) :
    (run cfg (initMachine caps t0) trace).stats.received =
      (run cfg (initMachine caps t0) trace).stats.sampled +
        (run cfg (initMachine caps t0) trace).stats.dropped +
        fmtFailCount cfg trace := by
  have h := (run_stats_accounting cfg trace (initMachine caps t0) rfl).2
  simpa [initMachine] using h

theorem mem_take_getElem {α : Type} {l : List α} {n : Nat} {x : α}
    (h : x ∈ l.take n) :
    ∃ i, ∃ hi : i < l.length, i < n ∧ l.get ⟨i, hi⟩ = x := by
  induction l generalizing n with
  | nil => simp at h
  | cons a as ih =>
    cases n with
    | zero => simp at h
    | succ n =>
      rw [List.take_succ_cons] at h
      rcases List.mem_cons.mp h with rfl | h2
      · exact ⟨0, by simp, by omega, rfl⟩
      · obtain ⟨i, hi, hin, hget⟩ := ih h2
        exact ⟨i + 1, by simpa using hi, by omega, by simpa using hget⟩

theorem kept_mem_ne (r : Reservoir Item) (hg : r.goodSlots) :
    ∀ x ∈ r.kept, x.2 ≠ [] := by
  intro x hx
  obtain ⟨i, hi, hin, hget⟩ := mem_take_getElem hx
  have := (hg i hi).1 hin
  rw [hget] at this
  exact this

theorem occAll_mem_ne (rs : List (Reservoir Item)) (hg : ∀ r ∈ rs, r.goodSlots) :
    ∀ x ∈ occAll rs, x.2 ≠ [] := by
  induction rs with
  | nil => simp [occAll]
  | cons r rest ih =>
    intro x hx
    rw [occAll_cons] at hx
    rcases List.mem_append.mp hx with hx | hx
    · exact kept_mem_ne r (hg r (by simp)) x hx
    · exact ih (fun q hq => hg q (by simp [hq])) x hx

theorem sortBySeq_perm (l : List Item) : List.Perm (sortBySeq l) l :=
  List.perm_insertionSort seqLE l

theorem sortBySeq_length (l : List Item) : (sortBySeq l).length = l.length :=
  List.length_insertionSort seqLE l

theorem seq_ne_symm : ∀ {x y : Item}, x.1 ≠ y.1 → y.1 ≠ x.1 :=
  fun h h2 => h h2.symm

theorem sortBySeq_sorted_lt (l : List Item)
    (h : List.Pairwise (fun a b : Item => a.1 ≠ b.1) l) :
    List.Pairwise (fun a b : Item => a.1 < b.1) (sortBySeq l) := by
  have hle : List.Pairwise seqLE (sortBySeq l) :=
    List.sorted_insertionSort seqLE l
  have hne : List.Pairwise (fun a b : Item => a.1 ≠ b.1) (sortBySeq l) :=
    (List.Perm.pairwise_iff seq_ne_symm (sortBySeq_perm l)).mpr h
  exact (List.Pairwise.and hle hne).imp (fun hab => Nat.lt_of_le_of_ne hab.1 hab.2)

theorem drain_events_default {α : Type} [Inhabited α] (r : Reservoir α)
    (hfresh : r.freshSlots) :
    (r.drain).2.events = List.replicate r.events.length default := by
  unfold Reservoir.drain
  apply List.ext_getElem
  · simp
  · intro i h1 h2
    simp only [List.length_replicate] at h2
    rw [List.getElem_replicate]
    by_cases hi : i < min r.count r.events.length
    · rw [List.getElem_append_left (by simpa using hi)]
      simp
    · have hge : (List.replicate (min r.count r.events.length) (default : α)).length ≤ i := by
        simp only [List.length_replicate]
        omega
      rw [List.getElem_append_right hge]
      rw [List.getElem_drop]
      have hidx : min r.count r.events.length +
          (i - (List.replicate (min r.count r.events.length) (default : α)).length) <
          r.events.length := by
        simp only [List.length_replicate]
        omega
      have hcount : r.count ≤ min r.count r.events.length +
          (i - (List.replicate (min r.count r.events.length) (default : α)).length) := by
        simp only [List.length_replicate]
        omega
      have := hfresh _ hidx hcount
      simpa [List.get_eq_getElem] using this

theorem goodSlots_replicate (n : Nat) :
    Reservoir.goodSlots { count := 0, events := List.replicate n (default : Item) } := by
  intro i hi
  refine ⟨fun h => by dsimp only at h; omega, fun _ => ?_⟩
  simp [List.get_eq_getElem]

theorem drain_snd_goodSlots (r : Reservoir Item) (hg : r.goodSlots) :
    (r.drain).2.goodSlots := by
  have hfresh : r.freshSlots := fun i h hc => (hg i h).2 hc
  have hev := drain_events_default r hfresh
  have hd : (r.drain).2 =
      { count := 0, events := List.replicate r.events.length default } := by
    calc (r.drain).2 = ⟨(r.drain).2.count, (r.drain).2.events⟩ := rfl
      _ = ⟨0, List.replicate r.events.length default⟩ := by rw [hev]; rfl
  rw [hd]
  exact goodSlots_replicate _

theorem occAll_drained_nil (rs : List (Reservoir Item)) :
    occAll (rs.map (fun r => (Reservoir.drain r).2)) = [] := by
  induction rs with
  | nil => rfl
  | cons r rest ih =>
    rw [List.map_cons, occAll_cons, ih]
    rfl

/-- Global ordering and well-formedness invariant tying the sink transcript,
the pending queue, the reservoir contents and the arrival counter. -/
structure EngInv (sink pending : List Item) (rs : List (Reservoir Item))
    (seq : Nat) : Prop where
  sink_sorted : List.Pairwise (fun a b : Item => a.1 < b.1) sink
  pending_sorted : List.Pairwise (fun a b : Item => a.1 < b.1) pending
  sink_pending : ∀ x ∈ sink, ∀ y ∈ pending, x.1 < y.1
  written_occ : ∀ x, (x ∈ sink ∨ x ∈ pending) → ∀ y ∈ occAll rs, x.1 < y.1
  occ_ne : List.Pairwise (fun a b : Item => a.1 ≠ b.1) (occAll rs)
  bound : ∀ y, (y ∈ sink ∨ y ∈ pending ∨ y ∈ occAll rs) → y.1 ≤ seq
  good : ∀ r ∈ rs, r.goodSlots
  pending_ne : ∀ y ∈ pending, y.2 ≠ []

theorem EngInv_release (sink pending : List Item) (rs : List (Reservoir Item))
    (seq k : Nat) (hI : EngInv sink pending rs seq) :
    EngInv (sink ++ pending.take k) (pending.drop k) rs seq := by
  have hsplit : pending.take k ++ pending.drop k = pending :=
    List.take_append_drop k pending
  have hps := hI.pending_sorted
  rw [← hsplit] at hps
  obtain ⟨hts, hds, hcross⟩ := List.pairwise_append.mp hps
  refine ⟨?_, hds, ?_, ?_, hI.occ_ne, ?_, hI.good, ?_⟩
  · rw [List.pairwise_append]
    refine ⟨hI.sink_sorted, hts, ?_⟩
    intro x hx y hy
    exact hI.sink_pending x hx y (by rw [← hsplit]; exact List.mem_append_left _ hy)
  · intro x hx y hy
    rcases List.mem_append.mp hx with hx | hx
    · exact hI.sink_pending x hx y (by rw [← hsplit]; exact List.mem_append_right _ hy)
    · exact hcross x hx y hy
  · intro x hx y hy
    rcases hx with hx | hx
    · rcases List.mem_append.mp hx with hx | hx
      · exact hI.written_occ x (Or.inl hx) y hy
      · exact hI.written_occ x (Or.inr (by rw [← hsplit]; exact List.mem_append_left _ hx)) y hy
    · exact hI.written_occ x
        (Or.inr (by rw [← hsplit]; exact List.mem_append_right _ hx)) y hy
  · intro y hy
    rcases hy with hy | hy | hy
    · rcases List.mem_append.mp hy with hy | hy
      · exact hI.bound y (Or.inl hy)
      · exact hI.bound y (Or.inr (Or.inl (by rw [← hsplit]; exact List.mem_append_left _ hy)))
    · exact hI.bound y (Or.inr (Or.inl (by rw [← hsplit]; exact List.mem_append_right _ hy)))
    · exact hI.bound y (Or.inr (Or.inr hy))
  · intro y hy
    exact hI.pending_ne y (by rw [← hsplit]; exact List.mem_append_right _ hy)

theorem EngInv_rotate (sink pending : List Item) (rs : List (Reservoir Item))
    (seq : Nat) (hI : EngInv sink pending rs seq) :
    EngInv (sink ++ pending) (sortBySeq (occAll rs))
      (rs.map (fun r => (Reservoir.drain r).2)) seq := by
  have hmem : ∀ y, y ∈ sortBySeq (occAll rs) ↔ y ∈ occAll rs :=
    fun y => (sortBySeq_perm (occAll rs)).mem_iff
  refine ⟨?_, sortBySeq_sorted_lt _ hI.occ_ne, ?_, ?_, ?_, ?_, ?_, ?_⟩
  · rw [List.pairwise_append]
    exact ⟨hI.sink_sorted, hI.pending_sorted, hI.sink_pending⟩
  · intro x hx y hy
    have hy2 := (hmem y).mp hy
    rcases List.mem_append.mp hx with hx | hx
    · exact hI.written_occ x (Or.inl hx) y hy2
    · exact hI.written_occ x (Or.inr hx) y hy2
  · intro x _ y hy
    rw [occAll_drained_nil] at hy
    cases hy
  · rw [occAll_drained_nil]
    exact List.Pairwise.nil
  · intro y hy
    rcases hy with hy | hy | hy
    · rcases List.mem_append.mp hy with hy | hy
      · exact hI.bound y (Or.inl hy)
      · exact hI.bound y (Or.inr (Or.inl hy))
    · exact hI.bound y (Or.inr (Or.inr ((hmem y).mp hy)))
    · rw [occAll_drained_nil] at hy
      cases hy
  · intro r hr
    obtain ⟨r0, hr0, hr0e⟩ := List.mem_map.mp hr
    rw [← hr0e]
    exact drain_snd_goodSlots r0 (hI.good r0 hr0)
  · intro y hy
    exact occAll_mem_ne rs hI.good y ((hmem y).mp hy)

theorem EngInv_sample (sink pending : List Item) (rs : List (Reservoir Item))
    (seq : Nat) (bytes : List Nat) (matched : Nat) (draws : Nat → Nat)
    (hI : EngInv sink pending rs seq) (hb : bytes ≠ []) :
    ∀ rs2 res, cascadeFrom draws matched 0 rs (seq + 1, bytes) = (rs2, res) →
      EngInv sink pending rs2 (seq + 1) := by
  intro rs2 res heq
  have hb2 : ((seq + 1, bytes) : Item).2 ≠ [] := hb
  obtain ⟨hlen, hgood2, hframe, hnone, hsome⟩ :=
    cascadeFrom_spec draws matched rs 0 (seq + 1, bytes) hI.good hb2 rs2 res heq
  have hocc_mem : ∀ y ∈ occAll rs2, y ∈ occAll rs ∨ y = (seq + 1, bytes) := by
    intro y hy
    cases res with
    | none =>
      have hp := (hnone rfl).1
      have := hp.mem_iff.mp hy
      rcases List.mem_append.mp this with h | h
      · exact Or.inl h
      · exact Or.inr (by simpa using h)
    | some left =>
      have hp := (hsome left rfl).2
      have := hp.mem_iff.mp (List.mem_append_left _ hy)
      rcases List.mem_append.mp this with h | h
      · exact Or.inl h
      · exact Or.inr (by simpa using h)
  have hpair_big : List.Pairwise (fun a b : Item => a.1 ≠ b.1)
      (occAll rs ++ [(seq + 1, bytes)]) := by
    rw [List.pairwise_append]
    refine ⟨hI.occ_ne, List.pairwise_singleton _ _, ?_⟩
    intro x hx y hy
    rw [List.mem_singleton] at hy
    subst hy
    have := hI.bound x (Or.inr (Or.inr hx))
    simp only []
    omega
  have hocc_ne2 : List.Pairwise (fun a b : Item => a.1 ≠ b.1) (occAll rs2) := by
    cases res with
    | none =>
      exact (List.Perm.pairwise_iff seq_ne_symm (hnone rfl).1).mpr hpair_big
    | some left =>
      have := (List.Perm.pairwise_iff seq_ne_symm (hsome left rfl).2).mpr hpair_big
      exact List.Pairwise.sublist (List.sublist_append_left _ _) this
  refine ⟨hI.sink_sorted, hI.pending_sorted, hI.sink_pending, ?_, hocc_ne2, ?_, hgood2, hI.pending_ne⟩
  · intro x hx y hy
    rcases hocc_mem y hy with h | h
    · exact hI.written_occ x hx y h
    · subst h
      have hb3 : x.1 ≤ seq := by
        rcases hx with hx | hx
        · exact hI.bound x (Or.inl hx)
        · exact hI.bound x (Or.inr (Or.inl hx))
      simp only []
      omega
  · intro y hy
    rcases hy with hy | hy | hy
    · exact Nat.le_trans (hI.bound y (Or.inl hy)) (by omega)
    · exact Nat.le_trans (hI.bound y (Or.inr (Or.inl hy))) (by omega)
    · rcases hocc_mem y hy with h | h
      · exact Nat.le_trans (hI.bound y (Or.inr (Or.inr h))) (by omega)
      · subst h
        simp

theorem smear_collect_parts (st : State) (now D : Nat) :
    ∃ k lr,
      (smear_collect st now D).1 = st.pending.take k ∧
      (smear_collect st now D).2.pending = st.pending.drop k ∧
      (smear_collect st now D).2.bucket_start = st.bucket_start ∧
      (smear_collect st now D).2.seq = st.seq ∧
      (smear_collect st now D).2.reservoirs = st.reservoirs ∧
      (smear_collect st now D).2.last_release = lr := by
  unfold smear_collect
  by_cases h0 : st.pending.length = 0
  · rw [if_pos h0]
    exact ⟨0, st.last_release, by simp, by simp, rfl, rfl, rfl, rfl⟩
  · simp only [if_neg h0]
    by_cases hT : 0 <
        (if st.bucket_start + D - now = 0 then st.pending.length
         else
          if (st.bucket_start + D - now) / st.pending.length = 0 then
            st.pending.length
          else (now - st.last_release) /
            ((st.bucket_start + D - now) / st.pending.length))
    · rw [if_pos hT]
      exact ⟨_, now, rfl, rfl, rfl, rfl, rfl, rfl⟩
    · rw [if_neg hT]
      exact ⟨0, st.last_release, by simp, by simp, rfl, rfl, rfl, rfl⟩

/-- Machine-level invariant: the engine invariant on the observable parts
plus the empty thread-local capture buffer between events. -/
def MInv (m : Machine) : Prop :=
  EngInv m.sink m.state.pending m.state.reservoirs m.state.seq ∧ m.cache = []

theorem tick_smear_MInv (D : Nat) (st : State) (sink : List Item) (now : Nat)
    (hI : EngInv sink st.pending st.reservoirs st.seq) :
    EngInv (tick_smear D st sink now).2 (tick_smear D st sink now).1.pending
      (tick_smear D st sink now).1.reservoirs (tick_smear D st sink now).1.seq ∧
    (tick_smear D st sink now).1.seq = st.seq := by
  obtain ⟨k, lr, h1, h2, h3, h4, h5, h6⟩ := smear_collect_parts st now D
  have hIs : EngInv (sink ++ st.pending.take k) (smear_collect st now D).2.pending
      (smear_collect st now D).2.reservoirs (smear_collect st now D).2.seq := by
    rw [h2, h4, h5]
    exact EngInv_release sink st.pending st.reservoirs st.seq k hI
  unfold tick_smear
  dsimp only
  by_cases hrot : D ≤ now - (smear_collect st now D).2.bucket_start
  · rw [if_pos hrot]
    have hb : (rotate_bucket (smear_collect st now D).2 (smear_collect st now D).1 now) =
        ((smear_collect st now D).1 ++ (smear_collect st now D).2.pending,
          { (drain_all { (smear_collect st now D).2 with pending := [] }).2 with
            pending := (drain_all { (smear_collect st now D).2 with pending := [] }).1,
            bucket_start := now, last_release := now }) := rfl
    rw [hb]
    dsimp only
    constructor
    · have hres : (drain_all { (smear_collect st now D).2 with pending := [] }).2.reservoirs =
          (smear_collect st now D).2.reservoirs.map (fun r => (Reservoir.drain r).2) := rfl
      have hdr : (drain_all { (smear_collect st now D).2 with pending := [] }).1 =
          sortBySeq (occAll (smear_collect st now D).2.reservoirs) := rfl
      rw [hres, hdr, h1, h2, h4, h5]
      have hr := EngInv_rotate (sink ++ st.pending.take k) (st.pending.drop k)
        st.reservoirs st.seq
        (EngInv_release sink st.pending st.reservoirs st.seq k hI)
      have hassoc : sink ++ st.pending.take k ++ st.pending.drop k =
          sink ++ (st.pending.take k ++ st.pending.drop k) := by simp
      rw [hassoc, List.take_append_drop] at hr
      rw [List.take_append_drop]
      show EngInv (sink ++ st.pending) (sortBySeq (occAll st.reservoirs))
        (List.map (fun r => (Reservoir.drain r).2) st.reservoirs) st.seq
      exact hr
    · show (smear_collect st now D).2.seq = st.seq
      exact h4
  · rw [if_neg hrot]
    dsimp only
    rw [h1]
    exact ⟨hIs, h4⟩

theorem MInv_step (cfg : LayerCfg) (m : Machine) (s : Step) (h : MInv m) :
    MInv (stepM cfg m s) := by
  cases s with
  | flush =>
    obtain ⟨hI, hc⟩ := h
    constructor
    · have hr := EngInv_rotate m.sink m.state.pending m.state.reservoirs
        m.state.seq hI
      have h2 := EngInv_release (m.sink ++ m.state.pending)
        (sortBySeq (occAll m.state.reservoirs))
        (m.state.reservoirs.map (fun r => (Reservoir.drain r).2)) m.state.seq
        (sortBySeq (occAll m.state.reservoirs)).length hr
      rw [List.take_length, List.drop_length] at h2
      show EngInv (m.sink ++ m.state.pending ++ sortBySeq (occAll m.state.reservoirs))
        [] (m.state.reservoirs.map (fun r => (Reservoir.drain r).2)) m.state.seq
      exact h2
    · exact hc
  | ev e =>
    show MInv (on_event cfg m e)
    by_cases hm : match_filters cfg.filters e.meta = 0
    · have hone : on_event cfg m e = m := by simp [on_event, hm]
      rw [hone]
      exact h
    · obtain ⟨hI, hc⟩ := h
      obtain ⟨htick, hseq⟩ :=
        tick_smear_MInv cfg.bucket_duration m.state m.sink e.now hI
      by_cases hf : m.cache ++ e.fmtOut = []
      · have hone : on_event cfg m e =
            { state := (tick_smear cfg.bucket_duration m.state m.sink e.now).1,
              stats := { m.stats with received := m.stats.received + 1 },
              sink := (tick_smear cfg.bucket_duration m.state m.sink e.now).2,
              cache := [] } := by
          simp only [on_event]
          rw [if_neg hm, if_pos hf]
        rw [hone]
        exact ⟨htick, rfl⟩
      · have hone : on_event cfg m e =
            { state := (sample_event
                (tick_smear cfg.bucket_duration m.state m.sink e.now).1
                { m.stats with received := m.stats.received + 1 } []
                (m.cache ++ e.fmtOut) (match_filters cfg.filters e.meta) e.draws).1,
              stats := (sample_event
                (tick_smear cfg.bucket_duration m.state m.sink e.now).1
                { m.stats with received := m.stats.received + 1 } []
                (m.cache ++ e.fmtOut) (match_filters cfg.filters e.meta) e.draws).2.1,
              sink := (tick_smear cfg.bucket_duration m.state m.sink e.now).2,
              cache := (sample_event
                (tick_smear cfg.bucket_duration m.state m.sink e.now).1
                { m.stats with received := m.stats.received + 1 } []
                (m.cache ++ e.fmtOut) (match_filters cfg.filters e.meta) e.draws).2.2 } := by
          simp only [on_event]
          rw [if_neg hm, if_neg hf]
        rw [hone]
        obtain ⟨c1, c2, hcas⟩ : ∃ c1 c2,
            cascadeFrom e.draws (match_filters cfg.filters e.meta) 0
              (tick_smear cfg.bucket_duration m.state m.sink e.now).1.reservoirs
              ((tick_smear cfg.bucket_duration m.state m.sink e.now).1.seq + 1,
                m.cache ++ e.fmtOut) = (c1, c2) := ⟨_, _, rfl⟩
        have hinv2 := EngInv_sample
          (tick_smear cfg.bucket_duration m.state m.sink e.now).2
          (tick_smear cfg.bucket_duration m.state m.sink e.now).1.pending
          (tick_smear cfg.bucket_duration m.state m.sink e.now).1.reservoirs
          (tick_smear cfg.bucket_duration m.state m.sink e.now).1.seq
          (m.cache ++ e.fmtOut) (match_filters cfg.filters e.meta) e.draws
          htick hf c1 c2 hcas
        cases c2 with
        | none =>
          have hse : sample_event
              (tick_smear cfg.bucket_duration m.state m.sink e.now).1
              { m.stats with received := m.stats.received + 1 } []
              (m.cache ++ e.fmtOut) (match_filters cfg.filters e.meta) e.draws =
              ({ (tick_smear cfg.bucket_duration m.state m.sink e.now).1 with
                  seq := (tick_smear cfg.bucket_duration m.state m.sink e.now).1.seq + 1,
                  reservoirs := c1 },
                { { m.stats with received := m.stats.received + 1 } with
                    sampled := m.stats.sampled + 1 }, []) := by
            unfold sample_event
            rw [hcas]
          rw [hse]
          exact ⟨hinv2, rfl⟩
        | some left =>
          have hse : sample_event
              (tick_smear cfg.bucket_duration m.state m.sink e.now).1
              { m.stats with received := m.stats.received + 1 } []
              (m.cache ++ e.fmtOut) (match_filters cfg.filters e.meta) e.draws =
              ({ (tick_smear cfg.bucket_duration m.state m.sink e.now).1 with
                  seq := (tick_smear cfg.bucket_duration m.state m.sink e.now).1.seq + 1,
                  reservoirs := c1 },
                { { m.stats with received := m.stats.received + 1 } with
                    dropped := m.stats.dropped + 1 }, []) := by
            unfold sample_event
            rw [hcas]
          rw [hse]
          exact ⟨hinv2, rfl⟩

theorem run_MInv (cfg : LayerCfg) :
    ∀ (trace : List Step) (m : Machine), MInv m → MInv (run cfg m trace) := by
  intro trace
  induction trace with
  | nil => exact fun m h => h
  | cons s rest ih =>
    intro m h
    exact ih (stepM cfg m s) (MInv_step cfg m s h)

theorem occAll_init (caps : List Nat) :
    occAll (caps.map (fun k => Reservoir.new Item k)) = [] := by
  induction caps with
  | nil => rfl
  | cons k rest ih =>
    rw [List.map_cons, occAll_cons, ih]
    rfl

theorem MInv_init (caps : List Nat) (t0 : Nat) : MInv (initMachine caps t0) := by
  constructor
  · refine ⟨List.Pairwise.nil, List.Pairwise.nil, ?_, ?_, ?_, ?_, ?_, ?_⟩
    · intro x hx
      simp [initMachine] at hx
    · intro x hx
      simp [initMachine] at hx
    · show List.Pairwise _ (occAll ((initMachine caps t0).state.reservoirs))
      have : (initMachine caps t0).state.reservoirs =
          caps.map (fun k => Reservoir.new Item k) := rfl
      rw [this, occAll_init]
      exact List.Pairwise.nil
    · intro y hy
      rcases hy with hy | hy | hy
      · simp [initMachine] at hy
      · simp [initMachine] at hy
      · have : (initMachine caps t0).state.reservoirs =
            caps.map (fun k => Reservoir.new Item k) := rfl
        rw [this, occAll_init] at hy
        cases hy
    · intro r hr
      have : (initMachine caps t0).state.reservoirs =
          caps.map (fun k => Reservoir.new Item k) := rfl
      rw [this] at hr
      obtain ⟨k, _, hk⟩ := List.mem_map.mp hr
      rw [← hk]
      intro i hi
      refine ⟨fun hlt => ?_, fun _ => ?_⟩
      · have : (Reservoir.new Item k).count = 0 := rfl
        omega
      · simp [Reservoir.new, List.get_eq_getElem]
    · intro y hy
      simp [initMachine] at hy
  · rfl

/-- C4: along every execution from the initial layer state, the sink
transcript is strictly increasing in arrival sequence number.  Sequence
numbers are assigned monotonically under the sample lock, and every item of
bucket i is sequenced before any item of bucket i+1, so this single ordering
statement yields both halves of the claim: items of one bucket appear in
strictly increasing arrival order, and all emitted items of bucket i are
written before any item of bucket i+1, across smear release, rotation and
flush. -/
theorem sink_arrival_ordered (cfg : LayerCfg) (caps : List Nat) (t0 : Nat)
    (trace : List Step) :
    List.Pairwise (fun a b : Item => a.1 < b.1)
      (run cfg (initMachine caps t0) trace).sink :=
  ((run_MInv cfg trace (initMachine caps t0) (MInv_init caps t0)).1).sink_sorted

/-- C10: in every reachable state, every item retained in an occupied
reservoir slot and every item in the pending-emit queue has a non-empty byte
payload — on_event refuses empty formatted buffers, so the empty-bytes test
in sample_event is a sound sentinel for retention. -/
theorem stored_items_nonempty (cfg : LayerCfg) (caps : List Nat) (t0 : Nat)
    (trace : List Step) :
    (∀ y ∈ occAll (run cfg (initMachine caps t0) trace).state.reservoirs,
      y.2 ≠ []) ∧
    (∀ y ∈ (run cfg (initMachine caps t0) trace).state.pending, y.2 ≠ []) :=
  have h := run_MInv cfg trace (initMachine caps t0) (MInv_init caps t0)
  ⟨occAll_mem_ne _ h.1.good, h.1.pending_ne⟩

theorem matchBitsAux_low (meta : Nat) :
    ∀ (fs : List (Nat → Bool)) (i j : Nat), j < i →
      (matchBitsAux meta fs i).testBit j = false := by
  intro fs
  induction fs with
  | nil =>
    intro i j _
    exact Nat.zero_testBit j
  | cons f rest ih =>
    intro i j hj
    show ((if f meta then 1 <<< i else 0) |||
      matchBitsAux meta rest (i + 1)).testBit j = false
    rw [Nat.testBit_or]
    have h1 : (if f meta then 1 <<< i else 0).testBit j = false := by
      by_cases hf : f meta
      · rw [if_pos hf, Nat.one_shiftLeft, Nat.testBit_two_pow]
        simp only [decide_eq_false_iff_not]
        omega
      · rw [if_neg hf]
        exact Nat.zero_testBit j
    rw [h1, ih (i + 1) j (by omega)]
    rfl

theorem matchBitsAux_get (meta : Nat) :
    ∀ (fs : List (Nat → Bool)) (i m : Nat) (hm : m < fs.length),
      (matchBitsAux meta fs i).testBit (i + m) = fs.get ⟨m, hm⟩ meta := by
  intro fs
  induction fs with
  | nil =>
    intro i m hm
    simp at hm
  | cons f rest ih =>
    intro i m hm
    show ((if f meta then 1 <<< i else 0) |||
      matchBitsAux meta rest (i + 1)).testBit (i + m) = _
    rw [Nat.testBit_or]
    cases m with
    | zero =>
      have hlow : (matchBitsAux meta rest (i + 1)).testBit (i + 0) = false :=
        matchBitsAux_low meta rest (i + 1) (i + 0) (by omega)
      rw [hlow]
      by_cases hf : f meta
      · rw [if_pos hf, Nat.one_shiftLeft, Nat.testBit_two_pow]
        simp [hf]
      · rw [if_neg hf]
        simp [hf, Nat.zero_testBit]
    | succ m2 =>
      have h1 : (if f meta then 1 <<< i else 0).testBit (i + (m2 + 1)) = false := by
        by_cases hf : f meta
        · rw [if_pos hf, Nat.one_shiftLeft, Nat.testBit_two_pow]
          simp only [decide_eq_false_iff_not]
          omega
        · rw [if_neg hf]
          exact Nat.zero_testBit _
      rw [h1]
      have h2 : i + (m2 + 1) = (i + 1) + m2 := by omega
      rw [h2, ih (i + 1) m2 (by simpa using hm)]
      simp

theorem match_filters_all (fs : List (Nat → Bool)) (mu : Nat)
    (h : ∀ f ∈ fs, f mu = true) :
    ∀ m, (hm : m < fs.length) → (match_filters fs mu).testBit m = true := by
  intro m hm
  have hg := matchBitsAux_get mu fs 0 m hm
  rw [Nat.zero_add] at hg
  show (matchBitsAux mu fs 0).testBit m = true
  rw [hg]
  exact h _ (List.get_mem fs m hm)

theorem match_filters_pos (fs : List (Nat → Bool)) (mu : Nat)
    (h : ∀ f ∈ fs, f mu = true) (hlen : 0 < fs.length) :
    match_filters fs mu ≠ 0 := by
  intro h0
  have := match_filters_all fs mu h 0 hlen
  rw [h0] at this
  rw [Nat.zero_testBit] at this
  cases this

theorem get_cons_succ2 {α : Type} (a : α) (l : List α) (m : Nat)
    (h : m + 1 < (a :: l).length) :
    (a :: l).get ⟨m + 1, h⟩ = l.get ⟨m, by simpa using h⟩ := rfl

theorem cascadeFrom_counts (draws : Nat → Nat) (matched : Nat) :
    ∀ (caps : List Nat) (rs : List (Reservoir Item)) (i : Nat) (cur : Item)
      (n : Nat),
      rs.length = caps.length →
      (∀ m, (hm : m < rs.length) → (hmc : m < caps.length) →
        (rs.get ⟨m, hm⟩).count = n - (caps.take m).sum ∧
        (rs.get ⟨m, hm⟩).events.length = caps.get ⟨m, hmc⟩) →
      (∀ r ∈ rs, r.goodSlots) → cur.2 ≠ [] →
      (∀ m, m < rs.length → matched.testBit (i + m) = true) →
      ∀ rs2 res, cascadeFrom draws matched i rs cur = (rs2, res) →
        (∀ m, (hm : m < rs2.length) → (hmc : m < caps.length) →
          (rs2.get ⟨m, hm⟩).count = (n + 1) - (caps.take m).sum ∧
          (rs2.get ⟨m, hm⟩).events.length = caps.get ⟨m, hmc⟩) ∧
        (res = none ↔ n < caps.sum) := by
  intro caps
  induction caps with
  | nil =>
    intro rs i cur n hlen hcounts hg hcur hbits rs2 res heq
    have hrs : rs = [] := List.eq_nil_of_length_eq_zero (by simpa using hlen)
    subst hrs
    unfold cascadeFrom at heq
    injection heq with ha hb
    subst ha
    subst hb
    refine ⟨fun m hm hmc => by simp at hmc, ?_⟩
    constructor
    · intro h
      cases h
    · intro h
      simp at h
  | cons K caps2 ih =>
    intro rs i cur n hlen hcounts hg hcur hbits rs2 res heq
    cases rs with
    | nil => simp at hlen
    | cons r rest =>
      have hbit0 : matched.testBit i = true := by
        have := hbits 0 (by simp)
        simpa using this
      have hr0 := hcounts 0 (by simp) (by simp)
      have hcount0 : r.count = n := by simpa using hr0.1
      have hlen0 : r.events.length = K := by simpa using hr0.2
      have hgr : r.goodSlots := hg r (by simp)
      have hgrest : ∀ q ∈ rest, q.goodSlots := fun q hq => hg q (by simp [hq])
      rw [cascadeFrom, if_pos hbit0] at heq
      by_cases hemp : (r.sample cur (draws i)).2.2 = []
      · rw [if_pos hemp] at heq
        injection heq with ha hb
        subst ha
        subst hb
        have hnK : n < K := by
          by_contra hge
          have hfull := sample_kept_full r cur (draws i) hgr (by omega) hcur
          exact hfull.1 hemp
        obtain ⟨_, hcnt, hlen2, _, _⟩ :=
          sample_kept_nonfull r cur (draws i) hgr (by omega)
        refine ⟨?_, ?_⟩
        · intro m hm hmc
          cases m with
          | zero =>
            constructor
            · show ((r.sample cur (draws i)).1).count = (n + 1) -
                ((K :: caps2).take 0).sum
              rw [hcnt, hcount0]
              simp
            · show ((r.sample cur (draws i)).1).events.length =
                (K :: caps2).get ⟨0, hmc⟩
              rw [hlen2, hlen0]
              rfl
          | succ m2 =>
            have hm' : m2 + 1 < (r :: rest).length := by simpa using hm
            have hold := hcounts (m2 + 1) hm' hmc
            rw [get_cons_succ2] at hold
            rw [get_cons_succ2]
            have hsum : ((K :: caps2).take (m2 + 1)).sum =
                K + (caps2.take m2).sum := by
              simp [List.take_succ_cons]
            rw [hsum] at hold ⊢
            refine ⟨?_, hold.2⟩
            have h1 := hold.1
            omega
        · simp only [List.sum_cons]
          constructor
          · intro _
            omega
          · intro _
            trivial
      · have hge : K ≤ n := by
          by_contra hlt
          have := (sample_kept_nonfull r cur (draws i) hgr (by omega)).1
          rw [this] at hemp
          exact hemp rfl
        obtain ⟨hne, hcnt, hlen2, _, _⟩ :=
          sample_kept_full r cur (draws i) hgr (by omega) hcur
        obtain ⟨c1, c2, hc⟩ : ∃ c1 c2,
            cascadeFrom draws matched (i + 1) rest ((r.sample cur (draws i)).2) =
              (c1, c2) := ⟨_, _, rfl⟩
        rw [if_neg hemp, hc] at heq
        dsimp only at heq
        injection heq with ha hb
        subst ha
        subst hb
        have hcounts2 : ∀ m, (hm : m < rest.length) → (hmc : m < caps2.length) →
            (rest.get ⟨m, hm⟩).count = (n - K) - (caps2.take m).sum ∧
            (rest.get ⟨m, hm⟩).events.length = caps2.get ⟨m, hmc⟩ := by
          intro m hm hmc
          have hold := hcounts (m + 1) (by simpa using hm) (by simpa using hmc)
          rw [get_cons_succ2] at hold
          have hsum : ((K :: caps2).take (m + 1)).sum =
              K + (caps2.take m).sum := by
            simp [List.take_succ_cons]
          rw [hsum] at hold
          refine ⟨?_, hold.2⟩
          have h1 := hold.1
          omega
        have hbits2 : ∀ m, m < rest.length → matched.testBit (i + 1 + m) = true := by
          intro m hm
          have hb2 := hbits (m + 1) (by simpa using hm)
          have he : i + (m + 1) = i + 1 + m := by omega
          rw [he] at hb2
          exact hb2
        obtain ⟨ihcounts, ihiff⟩ := ih rest (i + 1) ((r.sample cur (draws i)).2)
          (n - K) (by simpa using hlen) hcounts2 hgrest hne hbits2 c1 c2 hc
        refine ⟨?_, ?_⟩
        · intro m hm hmc
          cases m with
          | zero =>
            constructor
            · show ((r.sample cur (draws i)).1).count = (n + 1) -
                ((K :: caps2).take 0).sum
              rw [hcnt, hcount0]
              simp
            · show ((r.sample cur (draws i)).1).events.length =
                (K :: caps2).get ⟨0, hmc⟩
              rw [hlen2, hlen0]
              rfl
          | succ m2 =>
            rw [get_cons_succ2]
            have hi := ihcounts m2 (by simpa using hm) (by simpa using hmc)
            have hsum : ((K :: caps2).take (m2 + 1)).sum =
                K + (caps2.take m2).sum := by
              simp [List.take_succ_cons]
            rw [hsum]
            refine ⟨?_, hi.2⟩
            have h1 := hi.1
            omega
        · rw [List.sum_cons]
          exact ihiff.trans (by omega)

theorem tick_noop (D : Nat) (st : State) (sink : List Item) (now : Nat)
    (hp : st.pending = []) (hlt : now - st.bucket_start < D) :
    tick_smear D st sink now = (st, sink) := by
  have hsc : smear_collect st now D = ([], st) := by
    unfold smear_collect
    rw [hp]
    rfl
  unfold tick_smear
  dsimp only
  rw [hsc]
  dsimp only
  rw [if_neg (by omega : ¬ D ≤ now - st.bucket_start)]
  simp

theorem occAll_length_counts :
    ∀ (caps : List Nat) (rs : List (Reservoir Item)) (n : Nat),
      rs.length = caps.length →
      (∀ i, (hi : i < rs.length) → (hic : i < caps.length) →
        (rs.get ⟨i, hi⟩).count = n - (caps.take i).sum ∧
        (rs.get ⟨i, hi⟩).events.length = caps.get ⟨i, hic⟩) →
      (occAll rs).length = min n caps.sum := by
  intro caps
  induction caps with
  | nil =>
    intro rs n hlen _
    have hrs : rs = [] := List.eq_nil_of_length_eq_zero (by simpa using hlen)
    subst hrs
    simp [occAll]
  | cons K caps2 ih =>
    intro rs n hlen hc
    cases rs with
    | nil => simp at hlen
    | cons r rest =>
      have hr0 := hc 0 (by simp) (by simp)
      have hcount : r.count = n := by simpa using hr0.1
      have hlen0 : r.events.length = K := by simpa using hr0.2
      rw [occAll_cons, List.length_append]
      have hkept : r.kept.length = min n K := by
        unfold Reservoir.kept
        rw [List.length_take, hcount, hlen0]
      have hrest : (occAll rest).length = min (n - K) caps2.sum := by
        apply ih rest (n - K) (by simpa using hlen)
        intro i hi hic
        have hold := hc (i + 1) (by simpa using hi) (by simpa using hic)
        rw [get_cons_succ2] at hold
        have hsum : ((K :: caps2).take (i + 1)).sum = K + (caps2.take i).sum := by
          simp [List.take_succ_cons]
        rw [hsum] at hold
        refine ⟨?_, hold.2⟩
        have h1 := hold.1
        omega
      rw [hkept, hrest, List.sum_cons]
      omega

theorem flush_sink_eq (m : Machine) :
    (flushM m).sink =
      m.sink ++ m.state.pending ++ sortBySeq (occAll m.state.reservoirs) := rfl

theorem flush_flush_sink (m : Machine) :
    (flushM (flushM m)).sink = (flushM m).sink := by
  rw [flush_sink_eq (flushM m)]
  have h1 : (flushM m).state.pending = [] := rfl
  have h2 : (flushM m).state.reservoirs =
      m.state.reservoirs.map (fun r => (Reservoir.drain r).2) := rfl
  rw [h1, h2, occAll_drained_nil]
  simp [sortBySeq]

theorem scenario_run (fs : List (Nat → Bool)) (caps : List Nat)
    (D t0 mu : Nat) (out : Nat → List Nat) (draws : Nat → Nat → Nat)
    (hD : 0 < D) (hlen : fs.length = caps.length)
    (hmatch : ∀ f ∈ fs, f mu = true) (hout : ∀ n, out n ≠ []) :
    ∀ (N : Nat),
      (run ⟨fs, D⟩ (initMachine caps t0)
        ((List.range N).map fun n => Step.ev ⟨t0, mu, out n, draws n⟩)).sink = [] ∧
      (run ⟨fs, D⟩ (initMachine caps t0)
        ((List.range N).map fun n => Step.ev ⟨t0, mu, out n, draws n⟩)).state.pending = [] ∧
      (run ⟨fs, D⟩ (initMachine caps t0)
        ((List.range N).map fun n => Step.ev ⟨t0, mu, out n, draws n⟩)).cache = [] ∧
      (run ⟨fs, D⟩ (initMachine caps t0)
        ((List.range N).map fun n => Step.ev ⟨t0, mu, out n, draws n⟩)).state.bucket_start = t0 ∧
      (run ⟨fs, D⟩ (initMachine caps t0)
        ((List.range N).map fun n => Step.ev ⟨t0, mu, out n, draws n⟩)).state.reservoirs.length = caps.length ∧
      (∀ i, (hi : i < (run ⟨fs, D⟩ (initMachine caps t0)
          ((List.range N).map fun n => Step.ev ⟨t0, mu, out n, draws n⟩)).state.reservoirs.length) →
        (hic : i < caps.length) →
        ((run ⟨fs, D⟩ (initMachine caps t0)
          ((List.range N).map fun n => Step.ev ⟨t0, mu, out n, draws n⟩)).state.reservoirs.get ⟨i, hi⟩).count =
          N - (caps.take i).sum ∧
        ((run ⟨fs, D⟩ (initMachine caps t0)
          ((List.range N).map fun n => Step.ev ⟨t0, mu, out n, draws n⟩)).state.reservoirs.get ⟨i, hi⟩).events.length =
          caps.get ⟨i, hic⟩) ∧
      (∀ r ∈ (run ⟨fs, D⟩ (initMachine caps t0)
        ((List.range N).map fun n => Step.ev ⟨t0, mu, out n, draws n⟩)).state.reservoirs, r.goodSlots) := by
  intro N
  induction N with
  | zero =>
    have hrz : run ⟨fs, D⟩ (initMachine caps t0)
        ((List.range 0).map fun n => Step.ev ⟨t0, mu, out n, draws n⟩) =
        initMachine caps t0 := rfl
    rw [hrz]
    refine ⟨rfl, rfl, rfl, rfl, by simp [initMachine], ?_, ?_⟩
    · intro i hi hic
      have hi2 : i < caps.length := by simpa [initMachine] using hi
      constructor
      · show ((caps.map (fun k => Reservoir.new Item k)).get ⟨i, hi⟩).count =
          0 - (caps.take i).sum
        rw [List.get_eq_getElem, List.getElem_map]
        show (Reservoir.new Item (caps.get ⟨i, hi2⟩)).count = 0 - (caps.take i).sum
        simp [Reservoir.new]
      · show ((caps.map (fun k => Reservoir.new Item k)).get ⟨i, hi⟩).events.length =
          caps.get ⟨i, hic⟩
        rw [List.get_eq_getElem, List.getElem_map]
        show (Reservoir.new Item (caps.get ⟨i, hi2⟩)).events.length = caps.get ⟨i, hic⟩
        simp [Reservoir.new, List.get_eq_getElem]
    · intro r hr
      have hr2 : r ∈ caps.map (fun k => Reservoir.new Item k) := hr
      obtain ⟨k, _, hk⟩ := List.mem_map.mp hr2
      rw [← hk]
      intro i hi
      refine ⟨fun hlt2 => ?_, fun _ => ?_⟩
      · have hz : (Reservoir.new Item k).count = 0 := rfl
        omega
      · simp [Reservoir.new, List.get_eq_getElem]
  | succ N ihN =>
    obtain ⟨hsink, hpend, hcache, hbs, hrlen, hcounts, hgood⟩ := ihN
    have hsplit : (List.range (N + 1)).map
        (fun n => Step.ev (⟨t0, mu, out n, draws n⟩ : EvStep)) =
        ((List.range N).map fun n => Step.ev ⟨t0, mu, out n, draws n⟩) ++
          [Step.ev ⟨t0, mu, out N, draws N⟩] := by
      rw [List.range_succ, List.map_append]
      rfl
    have hrun : run ⟨fs, D⟩ (initMachine caps t0)
        ((List.range (N + 1)).map fun n => Step.ev ⟨t0, mu, out n, draws n⟩) =
        on_event ⟨fs, D⟩
          (run ⟨fs, D⟩ (initMachine caps t0)
            ((List.range N).map fun n => Step.ev ⟨t0, mu, out n, draws n⟩))
          ⟨t0, mu, out N, draws N⟩ := by
      rw [hsplit]
      unfold run
      rw [List.foldl_append]
      rfl
    rw [hrun]
    set M := run ⟨fs, D⟩ (initMachine caps t0)
      ((List.range N).map fun n => Step.ev ⟨t0, mu, out n, draws n⟩) with hM
    by_cases hfs : fs.length = 0
    · have hfs0 : fs = [] := List.eq_nil_of_length_eq_zero hfs
      have hm0 : match_filters fs mu = 0 := by
        rw [hfs0]
        rfl
      have hone : on_event ⟨fs, D⟩ M ⟨t0, mu, out N, draws N⟩ = M := by
        simp [on_event, hm0]
      rw [hone]
      have hcaps0 : caps.length = 0 := by omega
      refine ⟨hsink, hpend, hcache, hbs, hrlen, ?_, hgood⟩
      intro i hi hic
      omega
    · have hm0 : match_filters fs mu ≠ 0 :=
        match_filters_pos fs mu hmatch (by omega)
      have htick : tick_smear D M.state M.sink t0 = (M.state, M.sink) :=
        tick_noop D M.state M.sink t0 hpend (by rw [hbs]; omega)
      have hbytes : M.cache ++ out N ≠ [] := by
        rw [hcache]
        simpa using hout N
      have hone : on_event ⟨fs, D⟩ M ⟨t0, mu, out N, draws N⟩ =
          { state := (sample_event (tick_smear D M.state M.sink t0).1
              { M.stats with received := M.stats.received + 1 } []
              (M.cache ++ out N) (match_filters fs mu) (draws N)).1,
            stats := (sample_event (tick_smear D M.state M.sink t0).1
              { M.stats with received := M.stats.received + 1 } []
              (M.cache ++ out N) (match_filters fs mu) (draws N)).2.1,
            sink := (tick_smear D M.state M.sink t0).2,
            cache := (sample_event (tick_smear D M.state M.sink t0).1
              { M.stats with received := M.stats.received + 1 } []
              (M.cache ++ out N) (match_filters fs mu) (draws N)).2.2 } := by
        simp only [on_event]
        rw [if_neg hm0, if_neg hbytes]
      rw [hone, htick]
      dsimp only
      obtain ⟨c1, c2, hcas⟩ : ∃ c1 c2,
          cascadeFrom (draws N) (match_filters fs mu) 0 M.state.reservoirs
            (M.state.seq + 1, M.cache ++ out N) = (c1, c2) := ⟨_, _, rfl⟩
      have hbits : ∀ m, m < M.state.reservoirs.length →
          (match_filters fs mu).testBit (0 + m) = true := by
        intro m hm
        rw [Nat.zero_add]
        exact match_filters_all fs mu hmatch m (by omega)
      obtain ⟨hnewcounts, _⟩ := cascadeFrom_counts (draws N) (match_filters fs mu)
        caps M.state.reservoirs 0 (M.state.seq + 1, M.cache ++ out N) N
        (by omega) hcounts hgood hbytes hbits c1 c2 hcas
      obtain ⟨hclen, hcgood, _, _, _⟩ := cascadeFrom_spec (draws N)
        (match_filters fs mu) M.state.reservoirs 0
        (M.state.seq + 1, M.cache ++ out N) hgood hbytes c1 c2 hcas
      cases c2 with
      | none =>
        have hse : sample_event M.state
            { M.stats with received := M.stats.received + 1 } []
            (M.cache ++ out N) (match_filters fs mu) (draws N) =
            ({ M.state with seq := M.state.seq + 1, reservoirs := c1 },
              { { M.stats with received := M.stats.received + 1 } with
                  sampled := M.stats.sampled + 1 }, []) := by
          unfold sample_event
          rw [hcas]
        rw [hse]
        refine ⟨hsink, hpend, rfl, hbs, by dsimp only; omega, ?_, ?_⟩
        · intro i hi hic
          exact hnewcounts i hi hic
        · intro r hr
          exact hcgood r hr
      | some left =>
        have hse : sample_event M.state
            { M.stats with received := M.stats.received + 1 } []
            (M.cache ++ out N) (match_filters fs mu) (draws N) =
            ({ M.state with seq := M.state.seq + 1, reservoirs := c1 },
              { { M.stats with received := M.stats.received + 1 } with
                  dropped := M.stats.dropped + 1 }, []) := by
          unfold sample_event
          rw [hcas]
        rw [hse]
        refine ⟨hsink, hpend, rfl, hbs, by dsimp only; omega, ?_, ?_⟩
        · intro i hi hic
          exact hnewcounts i hi hic
        · intro r hr
          exact hcgood r hr

/-- C3: emit N events inside one bucket (all at the bucket-start instant,
each matching every budget and formatting to a non-empty buffer); a flush
then writes exactly min(N, sum of the per-bucket capacities) items to the
sink, and an immediately repeated flush writes nothing more. -/
theorem flush_emits_min (fs : List (Nat → Bool)) (caps : List Nat)
    (D t0 N mu : Nat) (out : Nat → List Nat) (draws : Nat → Nat → Nat)
    (hD : 0 < D) (hlen : fs.length = caps.length)
    (hmatch : ∀ f ∈ fs, f mu = true) (hout : ∀ n, out n ≠ []) :
    (flushM (run ⟨fs, D⟩ (initMachine caps t0)
        ((List.range N).map fun n => Step.ev ⟨t0, mu, out n, draws n⟩))).sink.length =
      min N caps.sum ∧
    (flushM (flushM (run ⟨fs, D⟩ (initMachine caps t0)
        ((List.range N).map fun n => Step.ev ⟨t0, mu, out n, draws n⟩)))).sink =
      (flushM (run ⟨fs, D⟩ (initMachine caps t0)
        ((List.range N).map fun n => Step.ev ⟨t0, mu, out n, draws n⟩))).sink := by
  obtain ⟨hsink, hpend, _, _, hrlen, hcounts, _⟩ :=
    scenario_run fs caps D t0 mu out draws hD hlen hmatch hout N
  constructor
  · rw [flush_sink_eq, hsink, hpend]
    simp only [List.nil_append]
    rw [sortBySeq_length]
    exact occAll_length_counts caps _ N hrlen hcounts
  · exact flush_flush_sink _

theorem flush_emits_min_witness :
    (flushM (run ⟨[fun _ => true, fun _ => true], 5⟩ (initMachine [2, 1] 0)
        ((List.range 5).map fun n =>
          Step.ev ⟨0, 0, (fun _ => [1]) n, (fun _ _ => 0) n⟩))).sink.length = 3 ∧
    (flushM (flushM (run ⟨[fun _ => true, fun _ => true], 5⟩ (initMachine [2, 1] 0)
        ((List.range 5).map fun n =>
          Step.ev ⟨0, 0, (fun _ => [1]) n, (fun _ _ => 0) n⟩)))).sink =
      (flushM (run ⟨[fun _ => true, fun _ => true], 5⟩ (initMachine [2, 1] 0)
        ((List.range 5).map fun n =>
          Step.ev ⟨0, 0, (fun _ => [1]) n, (fun _ _ => 0) n⟩))).sink :=
  have h := flush_emits_min [fun _ => true, fun _ => true] [2, 1] 5 0 5 0
    (fun _ => [1]) (fun _ _ => 0) (by decide) rfl
    (by
      intro f hf
      rcases List.mem_cons.mp hf with h1 | h1
      · rw [h1]
      · rcases List.mem_cons.mp h1 with h2 | h2
        · rw [h2]
        · simp at h2)
    (fun n => by simp)
  ⟨h.1.trans (by decide), h.2⟩
